import Mathlib

/-!
Verification of the KRPC message model and wire-encoding discipline of the
`dht` repository (package `krpc`, file `msg.go`).

The shown source contains the envelope model (`Msg`, `MsgArgs`, `Return`,
`Bep51Return`, `Error`) and its three methods (`SenderID`, `Error`,
`ForAllNodes`).  The generic bencode codec, the `ID` type and the compact
fixed-stride sub-encoders are referenced by the source but are not part of
it; those are modelled from the specification, and each such definition is
marked `Modelled from the spec:` in its doc comment.

Bytes are modelled as `List Nat`; machine-level byte bounds are irrelevant
to the stated properties except where noted (ports are two big-endian
bytes, so validity demands `port < 65536`).
-/

namespace krpc

/-- Byte strings of the wire format, modelled as lists of naturals. -/
abbrev Bytes := List Nat

/-! ## Lexicographic byte order on byte strings -/

/-- Strict lexicographic order on byte strings (the dictionary-key order
of the wire format). -/
def lexLt : Bytes → Bytes → Bool
  | [], [] => false
  | [], _ :: _ => true
  | _ :: _, [] => false
  | a :: as, b :: bs => if a < b then true else if b < a then false else lexLt as bs

theorem lexLt_irrefl : ∀ a : Bytes, lexLt a a = false := by
  intro a
  induction a with
  | nil => rfl
  | cons x xs ih => simp [lexLt, ih]

theorem lexLt_asymm : ∀ a b : Bytes, lexLt a b = true → lexLt b a = false := by
  intro a
  induction a with
  | nil =>
    intro b _
    cases b with
    | nil => rfl
    | cons y ys => rfl
  | cons x xs ih =>
    intro b hab
    cases b with
    | nil => simp [lexLt] at hab
    | cons y ys =>
      by_cases hxy : x < y
      · have hyx : ¬ y < x := by omega
        simp [lexLt, hxy, hyx, Nat.lt_asymm hxy]
      · by_cases hyx : y < x
        · simp [lexLt, hxy, hyx] at hab
        · have hxye : x = y := by omega
          subst hxye
          simp [lexLt, hxy, hyx] at hab ⊢
          exact ih ys hab

theorem lexLt_trans : ∀ a b c : Bytes,
    lexLt a b = true → lexLt b c = true → lexLt a c = true := by
  intro a
  induction a with
  | nil =>
    intro b c hab hbc
    cases b with
    | nil => simp [lexLt] at hab
    | cons y ys =>
      cases c with
      | nil => simp [lexLt] at hbc
      | cons z zs => rfl
  | cons x xs ih =>
    intro b c hab hbc
    cases b with
    | nil => simp [lexLt] at hab
    | cons y ys =>
      cases c with
      | nil => simp [lexLt] at hbc
      | cons z zs =>
        by_cases hxy : x < y
        · by_cases hyz : y < z
          · have hxz : x < z := Nat.lt_trans hxy hyz
            simp [lexLt, hxz]
          · by_cases hzy : z < y
            · simp [lexLt, hyz, hzy] at hbc
            · have : y = z := by omega
              subst this
              simp [lexLt, hxy]
        · by_cases hyx : y < x
          · simp [lexLt, hxy, hyx] at hab
          · have hxye : x = y := by omega
            subst hxye
            simp [lexLt, hxy] at hab
            by_cases hyz : x < z
            · simp [lexLt, hyz]
            · by_cases hzy : z < x
              · simp [lexLt, hyz, hzy] at hbc
              · have : x = z := by omega
                subst this
                simp [lexLt, hyz] at hbc ⊢
                exact ih ys zs hab hbc

theorem lexLt_total : ∀ a b : Bytes,
    lexLt a b = false → lexLt b a = false → a = b := by
  intro a
  induction a with
  | nil =>
    intro b hab _
    cases b with
    | nil => rfl
    | cons y ys => simp [lexLt] at hab
  | cons x xs ih =>
    intro b hab hba
    cases b with
    | nil => simp [lexLt] at hba
    | cons y ys =>
      by_cases hxy : x < y
      · simp [lexLt, hxy] at hab
      · by_cases hyx : y < x
        · simp [lexLt, hyx, Nat.lt_asymm hyx] at hba
        · have hxye : x = y := by omega
          subst hxye
          simp [lexLt, hxy] at hab hba
          rw [ih ys hab hba]

/-! ## The bencode document model -/

/-- Modelled from the spec: the generic codec's document type is not in the
shown source.  A self-describing document is a signed integer, a byte
string, an ordered list of documents, or a dictionary of key/value pairs
with byte-string keys. -/
inductive Bval where
  | int : Int → Bval
  | str : Bytes → Bval
  | list : List Bval → Bval
  | dict : List (Bytes × Bval) → Bval

/-- Nonstrict key order used to sort dictionary entries. -/
def keyLe (e f : Bytes × Bval) : Prop := lexLt e.1 f.1 = true ∨ e.1 = f.1

instance : DecidableRel keyLe := fun e f => by
  unfold keyLe
  infer_instance

instance : IsTotal (Bytes × Bval) keyLe := by
  constructor
  intro a b
  by_cases h : lexLt a.1 b.1 = true
  · exact Or.inl (Or.inl h)
  · by_cases h2 : lexLt b.1 a.1 = true
    · exact Or.inr (Or.inl h2)
    · exact Or.inl (Or.inr (lexLt_total _ _ (by simpa using h) (by simpa using h2)))

instance : IsTrans (Bytes × Bval) keyLe := by
  constructor
  intro a b c hab hbc
  rcases hab with hab | hab
  · rcases hbc with hbc | hbc
    · exact Or.inl (lexLt_trans _ _ _ hab hbc)
    · exact Or.inl (hbc ▸ hab)
  · rcases hbc with hbc | hbc
    · exact Or.inl (hab ▸ hbc)
    · exact Or.inr (hab.trans hbc)

/-- Sort dictionary entries into ascending key order (the wire format
requires strictly ascending keys, provided the keys are unique). -/
def sortEntries (kvs : List (Bytes × Bval)) : List (Bytes × Bval) :=
  List.insertionSort keyLe kvs

/-! ## Rendering documents to bytes -/

/-- Decimal ASCII digits of a natural number (most significant first). -/
def natDigits (n : Nat) : Bytes :=
  if n = 0 then [48] else (Nat.digits 10 n).reverse.map (· + 48)

/-- Decimal ASCII rendering of an integer, with a leading minus sign when
negative. -/
def intBytes (i : Int) : Bytes :=
  if i < 0 then 45 :: natDigits i.natAbs else natDigits i.natAbs

/-- Length-prefixed byte-string rendering: decimal length, colon, bytes. -/
def renderStr (s : Bytes) : Bytes := natDigits s.length ++ 58 :: s

mutual
/-- Modelled from the spec: the serializer of the generic codec is not in
the shown source.  Renders a document; dictionary entries are emitted in
stored order (`Encode` canonicalizes first). -/
def bencode : Bval → Bytes
  | .int i => 105 :: (intBytes i ++ [101])
  | .str s => renderStr s
  | .list xs => 108 :: (bencodeList xs ++ [101])
  | .dict kvs => 100 :: (bencodeEntries kvs ++ [101])

/-- Renders the elements of a list value, concatenated. -/
def bencodeList : List Bval → Bytes
  | [] => []
  | x :: xs => bencode x ++ bencodeList xs

/-- Renders dictionary entries, each as key string then value. -/
def bencodeEntries : List (Bytes × Bval) → Bytes
  | [] => []
  | (k, v) :: kvs => renderStr k ++ bencode v ++ bencodeEntries kvs
end

mutual
/-- Modelled from the spec: canonicalization underlying deterministic
encoding — every dictionary's entries are put into ascending key order,
recursively. -/
def canon : Bval → Bval
  | .int i => .int i
  | .str s => .str s
  | .list xs => .list (canonList xs)
  | .dict kvs => .dict (sortEntries (canonEntries kvs))

/-- Canonicalizes each element of a list value. -/
def canonList : List Bval → List Bval
  | [] => []
  | x :: xs => canon x :: canonList xs

/-- Canonicalizes the value of each dictionary entry. -/
def canonEntries : List (Bytes × Bval) → List (Bytes × Bval)
  | [] => []
  | (k, v) :: kvs => (k, canon v) :: canonEntries kvs
end

/-- Modelled from the spec: `Encode(document) -> bytes`, deterministic and
emitting every dictionary in strictly ascending key order. -/
def Encode (d : Bval) : Bytes := bencode (canon d)

/-- Ascending-key check of a candidate key against the previous key (none
for the first entry of a dictionary). -/
def ascOK (prev : Option Bytes) (k : Bytes) : Bool :=
  match prev with
  | none => true
  | some p => lexLt p k

mutual
/-- A document is canonical when every dictionary in it has strictly
ascending keys. -/
def canonicalB : Bval → Bool
  | .int _ => true
  | .str _ => true
  | .list xs => canonicalListB xs
  | .dict kvs => canonicalEntriesB none kvs

/-- Canonicality of every element of a list value. -/
def canonicalListB : List Bval → Bool
  | [] => true
  | x :: xs => canonicalB x && canonicalListB xs

/-- Canonicality of dictionary entries: keys strictly ascend from `prev`
and every value is canonical. -/
def canonicalEntriesB : Option Bytes → List (Bytes × Bval) → Bool
  | _, [] => true
  | prev, (k, v) :: kvs => ascOK prev k && canonicalB v && canonicalEntriesB (some k) kvs
end

mutual
/-- A document is well formed when every dictionary's keys are unique. -/
def wfB : Bval → Bool
  | .int _ => true
  | .str _ => true
  | .list xs => wfListB xs
  | .dict kvs => decide (kvs.map Prod.fst).Nodup && wfEntriesB kvs

/-- Well-formedness of every element of a list value. -/
def wfListB : List Bval → Bool
  | [] => true
  | x :: xs => wfB x && wfListB xs

/-- Well-formedness of every dictionary entry's value. -/
def wfEntriesB : List (Bytes × Bval) → Bool
  | [] => true
  | (_, v) :: kvs => wfB v && wfEntriesB kvs
end

mutual
/-- Fuel needed by the parser on this value's rendering (a bound on the
recursion depth of the parse). -/
def needV : Bval → Nat
  | .int _ => 1
  | .str _ => 1
  | .list xs => needL xs + 1
  | .dict kvs => needE kvs + 1

/-- Fuel needed to parse a rendered list body. -/
def needL : List Bval → Nat
  | [] => 1
  | x :: xs => max (needV x) (needL xs) + 1

/-- Fuel needed to parse rendered dictionary entries. -/
def needE : List (Bytes × Bval) → Nat
  | [] => 1
  | (_, v) :: kvs => max (needV v) (needE kvs) + 1
end

/-! ## Parsing bytes back into documents -/

/-- ASCII decimal digit test. -/
def isDigit (b : Nat) : Bool := decide (48 ≤ b ∧ b ≤ 57)

/-- Greedy parse of a nonempty run of decimal digits into a natural
number, returning the rest of the input. -/
def parseNat (b : Bytes) : Option (Nat × Bytes) :=
  let ds := b.takeWhile isDigit
  if ds = [] then none
  else some (ds.foldl (fun a d => a * 10 + (d - 48)) 0, b.dropWhile isDigit)

/-- Parse a length-prefixed byte string: decimal length, colon, bytes.
Fails with no value when the stream ends mid-value or the length prefix
exceeds the remaining input. -/
def parseStrRaw (b : Bytes) : Option (Bytes × Bytes) :=
  match parseNat b with
  | none => none
  | some (n, r) =>
    match r with
    | [] => none
    | c :: r2 =>
      if c = 58 then
        if r2.length < n then none else some (r2.take n, r2.drop n)
      else none

/-- Parse the body of an integer value (after the leading marker): an
optional minus sign, digits, and the closing marker. -/
def parseIntBody (b : Bytes) : Option (Bval × Bytes) :=
  match b with
  | [] => none
  | c :: r =>
    if c = 45 then
      match parseNat r with
      | none => none
      | some (n, r2) =>
        match r2 with
        | [] => none
        | e1 :: r3 => if e1 = 101 then (if n = 0 then none else some (.int (-(n : Int)), r3)) else none
    else
      match parseNat (c :: r) with
      | none => none
      | some (n, r2) =>
        match r2 with
        | [] => none
        | e1 :: r3 => if e1 = 101 then some (.int (n : Int), r3) else none

mutual
/-- Modelled from the spec: the deserializer of the generic codec is not in
the shown source.  Fuel-indexed recursive-descent parse of one document
value off the front of the input. -/
def parseVal : Nat → Bytes → Option (Bval × Bytes)
  | 0, _ => none
  | _ + 1, [] => none
  | f + 1, c :: r =>
    if c = 105 then parseIntBody r
    else if c = 108 then
      (parseListItems f r).map (fun p => (.list p.1, p.2))
    else if c = 100 then
      (parseEntries f none r).map (fun p => (.dict p.1, p.2))
    else if isDigit c then
      (parseStrRaw (c :: r)).map (fun p => (.str p.1, p.2))
    else none

/-- Parse list elements up to the closing marker. -/
def parseListItems : Nat → Bytes → Option (List Bval × Bytes)
  | 0, _ => none
  | _ + 1, [] => none
  | f + 1, c :: r =>
    if c = 101 then some ([], r)
    else
      (parseVal f (c :: r)).bind (fun p =>
        (parseListItems f p.2).map (fun q => (p.1 :: q.1, q.2)))

/-- Parse dictionary entries up to the closing marker, requiring keys to
ascend strictly from the previously seen key (rejecting duplicate and
unordered keys). -/
def parseEntries : Nat → Option Bytes → Bytes → Option (List (Bytes × Bval) × Bytes)
  | 0, _, _ => none
  | _ + 1, _, [] => none
  | f + 1, prev, c :: r =>
    if c = 101 then some ([], r)
    else
      (parseStrRaw (c :: r)).bind (fun p =>
        if ascOK prev p.1 then
          (parseVal f p.2).bind (fun q =>
            (parseEntries f (some p.1) q.2).map (fun w => ((p.1, q.1) :: w.1, w.2)))
        else none)
end

/-- Modelled from the spec: `Decode(bytes) -> document | error`, here with
`Option` as the failure type.  Succeeds only when the whole input is one
well-formed document. -/
def decodeB (b : Bytes) : Option Bval :=
  (parseVal (b.length + 1) b).bind (fun p => if p.2 = [] then some p.1 else none)

/-! ## A simultaneous induction principle for documents -/

section BvalInduction

variable {P : Bval → Prop} {Q : List Bval → Prop} {R : List (Bytes × Bval) → Prop}
variable (hint : ∀ i, P (.int i)) (hstr : ∀ s, P (.str s))
variable (hlist : ∀ xs, Q xs → P (.list xs))
variable (hdict : ∀ kvs, R kvs → P (.dict kvs))
variable (hnil : Q []) (hcons : ∀ x xs, P x → Q xs → Q (x :: xs))
variable (henil : R []) (hecons : ∀ k v kvs, P v → R kvs → R ((k, v) :: kvs))

mutual
/-- Simultaneous structural induction over documents. -/
def bvalInd : ∀ v : Bval, P v
  | .int i => hint i
  | .str s => hstr s
  | .list xs => hlist xs (bvalIndL xs)
  | .dict kvs => hdict kvs (bvalIndE kvs)

/-- Simultaneous structural induction over lists of documents. -/
def bvalIndL : ∀ xs : List Bval, Q xs
  | [] => hnil
  | x :: xs => hcons x xs (bvalInd x) (bvalIndL xs)

/-- Simultaneous structural induction over dictionary entry lists. -/
def bvalIndE : ∀ kvs : List (Bytes × Bval), R kvs
  | [] => henil
  | (k, v) :: kvs => hecons k v kvs (bvalInd v) (bvalIndE kvs)
end

end BvalInduction

/-! ## Round trip of the numeric and string primitives -/

theorem natDigits_ne_nil (n : Nat) : natDigits n ≠ [] := by
  unfold natDigits
  by_cases h : n = 0
  · simp [h]
  · simp [h, Nat.digits_ne_nil_iff_ne_zero.mpr h]

theorem natDigits_all_digit (n : Nat) : ∀ d ∈ natDigits n, isDigit d = true := by
  intro d hd
  unfold natDigits at hd
  by_cases h : n = 0
  · simp [h] at hd
    simp [hd, isDigit]
  · simp [h] at hd
    obtain ⟨e, he, rfl⟩ := hd
    have : e < 10 := Nat.digits_lt_base (by norm_num) he
    simp [isDigit]
    omega

theorem takeWhile_append_all {p : Nat → Bool} (l rest : Bytes)
    (hl : ∀ x ∈ l, p x = true) (hrest : ∀ d, rest.head? = some d → p d = false) :
    (l ++ rest).takeWhile p = l ∧ (l ++ rest).dropWhile p = rest := by
  induction l with
  | nil =>
    simp only [List.nil_append]
    cases rest with
    | nil => simp
    | cons d ds =>
      have := hrest d rfl
      simp [List.takeWhile, List.dropWhile, this]
  | cons x xs ih =>
    have hx : p x = true := hl x (List.mem_cons_self x xs)
    have hxs : ∀ y ∈ xs, p y = true := fun y hy => hl y (List.mem_cons_of_mem x hy)
    obtain ⟨h1, h2⟩ := ih hxs
    simp [List.takeWhile, List.dropWhile, hx, h1, h2]

theorem foldl_rev_digits (l : List Nat) (a : Nat) :
    (l.reverse.map (· + 48)).foldl (fun acc d => acc * 10 + (d - 48)) a
      = a * 10 ^ l.length + Nat.ofDigits 10 l := by
  induction l generalizing a with
  | nil => simp
  | cons d l ih =>
    simp only [List.reverse_cons, List.map_append, List.foldl_append, ih, List.map_cons,
      List.map_nil, List.foldl_cons, List.foldl_nil, Nat.ofDigits_cons, List.length_cons]
    have : d + 48 - 48 = d := by omega
    rw [this]
    ring

theorem parseNat_render (n : Nat) (rest : Bytes)
    (hrest : ∀ d, rest.head? = some d → isDigit d = false) :
    parseNat (natDigits n ++ rest) = some (n, rest) := by
  obtain ⟨h1, h2⟩ := takeWhile_append_all (natDigits n) rest (natDigits_all_digit n) hrest
  unfold parseNat
  simp only [h1, h2]
  rw [if_neg (natDigits_ne_nil n)]
  have hfold : (natDigits n).foldl (fun a d => a * 10 + (d - 48)) 0 = n := by
    unfold natDigits
    by_cases h : n = 0
    · simp [h]
    · rw [if_neg h, foldl_rev_digits]
      simp [Nat.ofDigits_digits]
  rw [hfold]

theorem parseStrRaw_render (s rest : Bytes) :
    parseStrRaw (renderStr s ++ rest) = some (s, rest) := by
  unfold renderStr
  rw [List.append_assoc, List.cons_append]
  rw [parseStrRaw, parseNat_render s.length (58 :: (s ++ rest))
    (by intro d hd; simp at hd; subst hd; simp [isDigit])]
  have hlen : ¬ (s ++ rest).length < s.length := by
    simp [List.length_append]
  simp [hlen, List.take_left, List.drop_left]

theorem parseIntBody_render (i : Int) (rest : Bytes) :
    parseIntBody (intBytes i ++ 101 :: rest) = some (.int i, rest) := by
  by_cases hi : i < 0
  · have habs : i.natAbs ≠ 0 := by omega
    rw [intBytes, if_pos hi, List.cons_append, parseIntBody]
    rw [if_pos rfl]
    rw [parseNat_render i.natAbs (101 :: rest) (by intro d hd; simp at hd; subst hd; simp [isDigit])]
    simp [habs]
    rw [abs_of_nonpos (by omega : i ≤ 0)]
    ring
  · obtain ⟨c, cs, hc⟩ : ∃ c cs, natDigits i.natAbs = c :: cs := by
      cases h : natDigits i.natAbs with
      | nil => exact absurd h (natDigits_ne_nil _)
      | cons c cs => exact ⟨c, cs, rfl⟩
    have hcd : isDigit c = true := natDigits_all_digit _ c (hc ▸ List.mem_cons_self c cs)
    have hc45 : ¬ c = 45 := by simp [isDigit] at hcd; omega
    rw [intBytes, if_neg hi, hc, List.cons_append, parseIntBody]
    rw [if_neg hc45]
    have : c :: (cs ++ 101 :: rest) = natDigits i.natAbs ++ 101 :: rest := by simp [hc]
    rw [this, parseNat_render i.natAbs (101 :: rest)
      (by intro d hd; simp at hd; subst hd; simp [isDigit])]
    have hpos : (i.natAbs : Int) = i := by omega
    simp [hpos]

/-! ## Round trip of the full parser on canonical documents -/

theorem bencode_head (v : Bval) :
    ∃ c t, bencode v = c :: t ∧ (c = 105 ∨ c = 108 ∨ c = 100 ∨ isDigit c = true)
      ∧ c ≠ 101 := by
  cases v with
  | int i => exact ⟨105, intBytes i ++ [101], by simp [bencode], Or.inl rfl, by omega⟩
  | str s =>
    obtain ⟨c, cs, hc⟩ : ∃ c cs, natDigits s.length = c :: cs := by
      cases h : natDigits s.length with
      | nil => exact absurd h (natDigits_ne_nil _)
      | cons c cs => exact ⟨c, cs, rfl⟩
    have hcd : isDigit c = true := natDigits_all_digit _ c (hc ▸ List.mem_cons_self c cs)
    refine ⟨c, cs ++ 58 :: s, by simp [bencode, renderStr, hc], Or.inr (Or.inr (Or.inr hcd)), ?_⟩
    simp [isDigit] at hcd
    omega
  | list xs => exact ⟨108, bencodeList xs ++ [101], by simp [bencode], Or.inr (Or.inl rfl), by omega⟩
  | dict kvs => exact ⟨100, bencodeEntries kvs ++ [101], by simp [bencode], Or.inr (Or.inr (Or.inl rfl)), by omega⟩

theorem parseVal_bencode : ∀ v : Bval, ∀ f rest, needV v ≤ f → canonicalB v = true →
    parseVal f (bencode v ++ rest) = some (v, rest) := by
  refine @bvalInd
    (fun v => ∀ f rest, needV v ≤ f → canonicalB v = true →
        parseVal f (bencode v ++ rest) = some (v, rest))
    (fun xs => ∀ f rest, needL xs ≤ f → canonicalListB xs = true →
        parseListItems f (bencodeList xs ++ 101 :: rest) = some (xs, rest))
    (fun kvs => ∀ f rest prev, needE kvs ≤ f → canonicalEntriesB prev kvs = true →
        parseEntries f prev (bencodeEntries kvs ++ 101 :: rest) = some (kvs, rest))
    ?_ ?_ ?_ ?_ ?_ ?_ ?_ ?_
  · intro i f rest hf _
    simp only [needV] at hf
    obtain ⟨f, rfl⟩ : ∃ g, f = g + 1 := ⟨f - 1, by omega⟩
    have hb : bencode (.int i) ++ rest = 105 :: (intBytes i ++ 101 :: rest) := by
      simp [bencode]
    rw [hb, parseVal, if_pos rfl]
    exact parseIntBody_render i rest
  · intro s f rest hf _
    simp only [needV] at hf
    obtain ⟨f, rfl⟩ : ∃ g, f = g + 1 := ⟨f - 1, by omega⟩
    obtain ⟨c, cs, hc⟩ : ∃ c cs, natDigits s.length = c :: cs := by
      cases h : natDigits s.length with
      | nil => exact absurd h (natDigits_ne_nil _)
      | cons c cs => exact ⟨c, cs, rfl⟩
    have hcd : isDigit c = true := natDigits_all_digit _ c (hc ▸ List.mem_cons_self c cs)
    have hcb : 48 ≤ c ∧ c ≤ 57 := by simpa [isDigit] using hcd
    have h105 : ¬ c = 105 := by omega
    have h108 : ¬ c = 108 := by omega
    have h100 : ¬ c = 100 := by omega
    have hb : bencode (.str s) ++ rest = c :: (cs ++ 58 :: (s ++ rest)) := by
      simp [bencode, renderStr, hc]
    rw [hb, parseVal, if_neg h105, if_neg h108, if_neg h100, if_pos hcd]
    have hb2 : c :: (cs ++ 58 :: (s ++ rest)) = renderStr s ++ rest := by
      simp [renderStr, hc]
    rw [hb2, parseStrRaw_render]
    simp
  · intro xs ih f rest hf hcan
    simp only [needV] at hf
    obtain ⟨f, rfl⟩ : ∃ g, f = g + 1 := ⟨f - 1, by omega⟩
    simp only [canonicalB] at hcan
    have hb : bencode (.list xs) ++ rest = 108 :: (bencodeList xs ++ 101 :: rest) := by
      simp [bencode]
    rw [hb, parseVal, if_neg (by omega : ¬ (108 : Nat) = 105), if_pos rfl]
    rw [ih f rest (by omega) hcan]
    simp
  · intro kvs ih f rest hf hcan
    simp only [needV] at hf
    obtain ⟨f, rfl⟩ : ∃ g, f = g + 1 := ⟨f - 1, by omega⟩
    simp only [canonicalB] at hcan
    have hb : bencode (.dict kvs) ++ rest = 100 :: (bencodeEntries kvs ++ 101 :: rest) := by
      simp [bencode]
    rw [hb, parseVal, if_neg (by omega : ¬ (100 : Nat) = 105),
      if_neg (by omega : ¬ (100 : Nat) = 108), if_pos rfl]
    rw [ih f rest none (by omega) hcan]
    simp
  · intro f rest hf _
    simp only [needL] at hf
    obtain ⟨f, rfl⟩ : ∃ g, f = g + 1 := ⟨f - 1, by omega⟩
    simp only [bencodeList, List.nil_append]
    rw [parseListItems, if_pos rfl]
  · intro x xs ihx ihxs f rest hf hcan
    simp only [needL, Nat.max_le] at hf
    obtain ⟨f, rfl⟩ : ∃ g, f = g + 1 := ⟨f - 1, by omega⟩
    obtain ⟨hx, hxs⟩ : needV x ≤ f ∧ needL xs ≤ f := by
      constructor <;> omega
    simp only [canonicalListB, Bool.and_eq_true] at hcan
    obtain ⟨hcx, hcxs⟩ := hcan
    obtain ⟨c, t, hct, _, hne⟩ := bencode_head x
    have hb : bencodeList (x :: xs) ++ 101 :: rest
        = c :: (t ++ (bencodeList xs ++ 101 :: rest)) := by
      simp [bencodeList, hct]
    rw [hb, parseListItems, if_neg hne]
    have hb2 : c :: (t ++ (bencodeList xs ++ 101 :: rest))
        = bencode x ++ (bencodeList xs ++ 101 :: rest) := by
      simp [hct]
    rw [hb2, ihx f _ hx hcx, Option.some_bind]
    rw [ihxs f rest hxs hcxs]
    simp
  · intro f rest prev hf _
    simp only [needE] at hf
    obtain ⟨f, rfl⟩ : ∃ g, f = g + 1 := ⟨f - 1, by omega⟩
    simp only [bencodeEntries, List.nil_append]
    rw [parseEntries, if_pos rfl]
  · intro k v kvs ihv ihkvs f rest prev hf hcan
    simp only [needE, Nat.max_le] at hf
    obtain ⟨f, rfl⟩ : ∃ g, f = g + 1 := ⟨f - 1, by omega⟩
    obtain ⟨hv, hkvs⟩ : needV v ≤ f ∧ needE kvs ≤ f := by
      constructor <;> omega
    simp only [canonicalEntriesB, Bool.and_eq_true] at hcan
    obtain ⟨⟨hasc, hcv⟩, hckvs⟩ := hcan
    obtain ⟨c, cs, hc⟩ : ∃ c cs, natDigits k.length = c :: cs := by
      cases h : natDigits k.length with
      | nil => exact absurd h (natDigits_ne_nil _)
      | cons c cs => exact ⟨c, cs, rfl⟩
    have hcd : isDigit c = true := natDigits_all_digit _ c (hc ▸ List.mem_cons_self c cs)
    have hne : ¬ c = 101 := by simp [isDigit] at hcd; omega
    have hb : bencodeEntries ((k, v) :: kvs) ++ 101 :: rest
        = c :: (cs ++ 58 :: (k ++ (bencode v ++ (bencodeEntries kvs ++ 101 :: rest)))) := by
      simp [bencodeEntries, renderStr, hc]
    rw [hb, parseEntries, if_neg hne]
    have hb2 : c :: (cs ++ 58 :: (k ++ (bencode v ++ (bencodeEntries kvs ++ 101 :: rest))))
        = renderStr k ++ (bencode v ++ (bencodeEntries kvs ++ 101 :: rest)) := by
      simp [renderStr, hc]
    rw [hb2, parseStrRaw_render, Option.some_bind]
    simp only
    rw [if_pos hasc, ihv f _ hv hcv, Option.some_bind]
    simp only
    rw [ihkvs f rest (some k) hkvs hckvs]
    simp

theorem bencode_length_pos (v : Bval) : 1 ≤ (bencode v).length := by
  obtain ⟨c, t, hct, _, _⟩ := bencode_head v
  simp [hct]

theorem needV_le_length : ∀ v : Bval, needV v ≤ (bencode v).length := by
  refine @bvalInd
    (fun v => needV v ≤ (bencode v).length)
    (fun xs => needL xs ≤ (bencodeList xs).length + 1)
    (fun kvs => needE kvs ≤ (bencodeEntries kvs).length + 1)
    ?_ ?_ ?_ ?_ ?_ ?_ ?_ ?_
  · intro i
    simp [needV, bencode]
  · intro s
    have := natDigits_ne_nil s.length
    have hpos : 1 ≤ (natDigits s.length).length := by
      cases h : natDigits s.length with
      | nil => exact absurd h this
      | cons c cs => simp
    simp [needV, bencode, renderStr]
    omega
  · intro xs ih
    simp only [needV, bencode, List.length_cons, List.length_append, List.length_singleton]
    omega
  · intro kvs ih
    simp only [needV, bencode, List.length_cons, List.length_append, List.length_singleton]
    omega
  · simp [needL, bencodeList]
  · intro x xs ihx ihxs
    have hx1 := bencode_length_pos x
    simp only [needL, bencodeList, List.length_append]
    have hmax : max (needV x) (needL xs) ≤ (bencode x).length + (bencodeList xs).length :=
      Nat.max_le.mpr ⟨by omega, by omega⟩
    omega
  · simp [needE, bencodeEntries]
  · intro k v kvs ihv ihkvs
    have hv1 := bencode_length_pos v
    simp only [needE, bencodeEntries, List.length_append]
    have hmax : max (needV v) (needE kvs)
        ≤ (renderStr k).length + ((bencode v).length + (bencodeEntries kvs).length) :=
      Nat.max_le.mpr ⟨by omega, by omega⟩
    omega

theorem decodeB_bencode (v : Bval) (hc : canonicalB v = true) :
    decodeB (bencode v) = some v := by
  unfold decodeB
  have h := parseVal_bencode v ((bencode v).length + 1) []
    (by have := needV_le_length v; omega) hc
  rw [List.append_nil] at h
  rw [h, Option.some_bind]
  simp

/-! ## Canonicalization: sorting produces canonical documents -/

/-- Strict key order on dictionary entries. -/
def keyLt (e f : Bytes × Bval) : Prop := lexLt e.1 f.1 = true

instance : IsAntisymm (Bytes × Bval) keyLt := by
  constructor
  intro a b h1 h2
  unfold keyLt at h1 h2
  rw [lexLt_asymm a.1 b.1 h1] at h2
  cases h2

theorem pairwise_strict_of_sorted : ∀ l : List (Bytes × Bval), l.Sorted keyLe →
    (l.map Prod.fst).Nodup → l.Pairwise keyLt := by
  intro l
  induction l with
  | nil => intro _ _; exact List.Pairwise.nil
  | cons e l ih =>
    intro hs hn
    rw [List.sorted_cons] at hs
    obtain ⟨h1, h2⟩ := hs
    rw [List.map_cons, List.nodup_cons] at hn
    obtain ⟨hne, hnd⟩ := hn
    refine List.Pairwise.cons ?_ (ih h2 hnd)
    intro f hf
    rcases h1 f hf with h | h
    · exact h
    · exact absurd (h ▸ List.mem_map_of_mem Prod.fst hf) hne

theorem canonicalEntriesB_of_pairwise : ∀ (l : List (Bytes × Bval)) (prev : Option Bytes),
    l.Pairwise keyLt → (∀ e ∈ l, canonicalB e.2 = true) →
    (∀ e ∈ l, ascOK prev e.1 = true) → canonicalEntriesB prev l = true := by
  intro l
  induction l with
  | nil => intro _ _ _ _; rfl
  | cons e l ih =>
    intro prev hp hv ha
    obtain ⟨k, v⟩ := e
    rw [List.pairwise_cons] at hp
    obtain ⟨h1, h2⟩ := hp
    simp only [canonicalEntriesB, Bool.and_eq_true]
    refine ⟨⟨ha _ (List.mem_cons_self _ _), hv _ (List.mem_cons_self _ _)⟩, ?_⟩
    refine ih (some k) h2 (fun f hf => hv f (List.mem_cons_of_mem _ hf)) ?_
    intro f hf
    exact h1 f hf

theorem canonEntries_eq_map : ∀ kvs : List (Bytes × Bval),
    canonEntries kvs = kvs.map (fun e => (e.1, canon e.2)) := by
  intro kvs
  induction kvs with
  | nil => rfl
  | cons e kvs ih =>
    obtain ⟨k, v⟩ := e
    simp [canonEntries, ih]

theorem canonEntries_keys (kvs : List (Bytes × Bval)) :
    (canonEntries kvs).map Prod.fst = kvs.map Prod.fst := by
  induction kvs with
  | nil => rfl
  | cons e kvs ih =>
    obtain ⟨k, v⟩ := e
    simp [canonEntries, ih]

theorem canonList_eq_map : ∀ xs : List Bval, canonList xs = xs.map canon := by
  intro xs
  induction xs with
  | nil => rfl
  | cons x xs ih => simp [canonList, ih]

theorem sortEntries_perm (kvs : List (Bytes × Bval)) : (sortEntries kvs).Perm kvs :=
  List.perm_insertionSort keyLe kvs

theorem sortEntries_sorted (kvs : List (Bytes × Bval)) : (sortEntries kvs).Sorted keyLe :=
  List.sorted_insertionSort keyLe kvs

theorem canon_wf_canonical : ∀ v : Bval, wfB v = true → canonicalB (canon v) = true := by
  refine @bvalInd
    (fun v => wfB v = true → canonicalB (canon v) = true)
    (fun xs => wfListB xs = true → canonicalListB (canonList xs) = true)
    (fun kvs => wfEntriesB kvs = true → ∀ e ∈ canonEntries kvs, canonicalB e.2 = true)
    ?_ ?_ ?_ ?_ ?_ ?_ ?_ ?_
  · intro i _; rfl
  · intro s _; rfl
  · intro xs ih h
    simp only [wfB] at h
    simp only [canon, canonicalB]
    exact ih h
  · intro kvs ih h
    simp only [wfB, Bool.and_eq_true, decide_eq_true_eq] at h
    obtain ⟨hnd, hwf⟩ := h
    simp only [canon, canonicalB]
    have hkeys : ((sortEntries (canonEntries kvs)).map Prod.fst).Nodup := by
      have hperm : ((sortEntries (canonEntries kvs)).map Prod.fst).Perm
          ((canonEntries kvs).map Prod.fst) :=
        (sortEntries_perm _).map Prod.fst
      rw [hperm.nodup_iff, canonEntries_keys]
      exact hnd
    refine canonicalEntriesB_of_pairwise _ none
      (pairwise_strict_of_sorted _ (sortEntries_sorted _) hkeys) ?_ ?_
    · intro e he
      exact ih hwf e ((sortEntries_perm _).mem_iff.mp he)
    · intro e _
      rfl
  · intro _; rfl
  · intro x xs ihx ihxs h
    simp only [wfListB, Bool.and_eq_true] at h
    simp only [canonList, canonicalListB, Bool.and_eq_true]
    exact ⟨ihx h.1, ihxs h.2⟩
  · intro _ e he
    simp [canonEntries] at he
  · intro k v kvs ihv ihkvs h e he
    simp only [wfEntriesB, Bool.and_eq_true] at h
    simp only [canonEntries, List.mem_cons] at he
    rcases he with rfl | he
    · exact ihv h.1
    · exact ihkvs h.2 e he

theorem entries_lexLt_of_canonical : ∀ (kvs : List (Bytes × Bval)) (p : Bytes),
    canonicalEntriesB (some p) kvs = true → ∀ e ∈ kvs, lexLt p e.1 = true := by
  intro kvs
  induction kvs with
  | nil => intro p _ e he; cases he
  | cons f kvs ih =>
    intro p h e he
    obtain ⟨k, v⟩ := f
    simp only [canonicalEntriesB, Bool.and_eq_true, ascOK] at h
    obtain ⟨⟨h1, _⟩, h3⟩ := h
    rcases List.mem_cons.mp he with rfl | he
    · exact h1
    · exact lexLt_trans _ _ _ h1 (ih k h3 e he)

theorem entries_sorted_of_canonical : ∀ (kvs : List (Bytes × Bval)) (prev : Option Bytes),
    canonicalEntriesB prev kvs = true → kvs.Sorted keyLe := by
  intro kvs
  induction kvs with
  | nil => intro _ _; exact List.Pairwise.nil
  | cons f kvs ih =>
    intro prev h
    obtain ⟨k, v⟩ := f
    simp only [canonicalEntriesB, Bool.and_eq_true] at h
    obtain ⟨⟨_, _⟩, h3⟩ := h
    rw [List.sorted_cons]
    refine ⟨?_, ih (some k) h3⟩
    intro e he
    exact Or.inl (entries_lexLt_of_canonical kvs k h3 e he)

theorem canon_id : ∀ v : Bval, canonicalB v = true → canon v = v := by
  refine @bvalInd
    (fun v => canonicalB v = true → canon v = v)
    (fun xs => canonicalListB xs = true → canonList xs = xs)
    (fun kvs => ∀ prev, canonicalEntriesB prev kvs = true → canonEntries kvs = kvs)
    ?_ ?_ ?_ ?_ ?_ ?_ ?_ ?_
  · intro i _; rfl
  · intro s _; rfl
  · intro xs ih h
    simp only [canonicalB] at h
    simp only [canon]
    rw [ih h]
  · intro kvs ih h
    simp only [canonicalB] at h
    simp only [canon]
    rw [ih none h]
    unfold sortEntries
    rw [(entries_sorted_of_canonical kvs none h).insertionSort_eq]
  · intro _; rfl
  · intro x xs ihx ihxs h
    simp only [canonicalListB, Bool.and_eq_true] at h
    simp only [canonList]
    rw [ihx h.1, ihxs h.2]
  · intro _ _; rfl
  · intro k v kvs ihv ihkvs prev h
    simp only [canonicalEntriesB, Bool.and_eq_true] at h
    obtain ⟨⟨_, h2⟩, h3⟩ := h
    simp only [canonEntries]
    rw [ihv h2, ihkvs (some k) h3]

theorem sortEntries_eq_of_perm (kvs1 kvs2 : List (Bytes × Bval))
    (hp : kvs1.Perm kvs2) (hnd : (kvs1.map Prod.fst).Nodup) :
    sortEntries kvs1 = sortEntries kvs2 := by
  have hnd2 : (kvs2.map Prod.fst).Nodup := ((hp.map Prod.fst).nodup_iff).mp hnd
  have hperm : (sortEntries kvs1).Perm (sortEntries kvs2) :=
    ((sortEntries_perm kvs1).trans hp).trans (sortEntries_perm kvs2).symm
  have hs1 : (sortEntries kvs1).Pairwise keyLt :=
    pairwise_strict_of_sorted _ (sortEntries_sorted _)
      (by rw [((sortEntries_perm kvs1).map Prod.fst).nodup_iff]; exact hnd)
  have hs2 : (sortEntries kvs2).Pairwise keyLt :=
    pairwise_strict_of_sorted _ (sortEntries_sorted _)
      (by rw [((sortEntries_perm kvs2).map Prod.fst).nodup_iff]; exact hnd2)
  exact List.eq_of_perm_of_sorted hperm hs1 hs2

/-! ## The envelope data model (from `msg.go`) -/

/-- Modelled from the spec: `NodeAddress` — an (IP, port) pair; the
`NodeAddr` type is referenced by `msg.go` but defined elsewhere. -/
structure NodeAddr where
  ip : Bytes
  port : Nat
deriving DecidableEq

/-- Modelled from the spec: `NodeInfo` = {NodeID, NodeAddress}; the type is
referenced by `msg.go` but defined elsewhere. -/
structure NodeInfo where
  id : Bytes
  addr : NodeAddr
deriving DecidableEq

/-- Modelled from the spec: `ErrorMsg` = {code, message}, encoded as a
2-element ordered pair; the `Error` type is referenced by `msg.go` but
defined elsewhere. -/
structure Error where
  code : Int
  msg : Bytes
deriving DecidableEq

/-- The `Want` enumerated string token of BEP 32 (source: `type Want string`). -/
abbrev Want := Bytes

/-- The token requesting IPv4 node results (source: `WantNodes Want = "n4"`). -/
def WantNodes : Want := [110, 52]

/-- The token requesting IPv6 node results (source: `WantNodes6 Want = "n6"`). -/
def WantNodes6 : Want := [110, 54]

/-- BEP 51 sampling extension fields (source: `Bep51Return`).  Each Go
optional-pointer field becomes an explicit option; `samples` distinguishes
a present-but-empty sample list from an absent field. -/
structure Bep51Return where
  interval : Option Int
  num : Option Int
  samples : Option (List Bytes)

/-- The response payload (source: `Return`).  The embedded `Bep51Return`
becomes explicit field composition; `V` is an opaque pre-encoded document. -/
structure Return where
  id : Bytes
  nodes : List NodeInfo
  nodes6 : List NodeInfo
  token : Option Bytes
  values : List NodeAddr
  bfsd : Option Bytes
  bfpe : Option Bytes
  bep51 : Bep51Return
  v : Option Bval

/-- The query arguments (source: `MsgArgs`). -/
structure MsgArgs where
  id : Bytes
  infoHash : Option Bytes
  target : Option Bytes
  token : Bytes
  port : Option Int
  impliedPort : Bool
  want : List Want
  noSeed : Int
  scrape : Int
  v : Option Bval

/-- The KRPC message envelope (source: `Msg`). -/
structure Msg where
  q : Bytes
  a : Option MsgArgs
  t : Bytes
  y : Bytes
  r : Option Return
  e : Option Error
  ip : Option NodeAddr
  readOnly : Bool

/-- The query variant tag, the byte string of the single character q. -/
def qTag : Bytes := [113]

/-- The response variant tag, the byte string of the single character r. -/
def rTag : Bytes := [114]

/-- The error variant tag, the byte string of the single character e. -/
def eTag : Bytes := [101]

/-- The node ID of the source of this Msg, or none if it is not present
(source: `Msg.SenderID`). -/
def Msg.SenderID (m : Msg) : Option Bytes :=
  if m.y = qTag then
    match m.a with
    | none => none
    | some a => some a.id
  else if m.y = rTag then
    match m.r with
    | none => none
    | some r => some r.id
  else none

/-- The error payload of this Msg when the variant tag is the error tag
(source: `Msg.Error`). -/
def Msg.Error (m : Msg) : Option Error :=
  if m.y ≠ eTag then none else m.e

/-- Visits every v4 node entry in list order, then every v6 node entry in
list order (source: `Return.ForAllNodes`); the Go visitor's side effects
become explicit state passing. -/
def Return.ForAllNodes {σ : Type} (r : Return) (f : NodeInfo → σ → σ) (s : σ) : σ :=
  let s1 := r.nodes.foldl (fun acc n => f n acc) s
  r.nodes6.foldl (fun acc n => f n acc) s1

/-- Modelled from the spec: `NodeID` construction — the `ID` type is
referenced by `msg.go` but defined elsewhere; length 20 is required, any
other length is an error, and a 20-byte value is returned unchanged. -/
def makeNodeID (b : Bytes) : Option Bytes :=
  if b.length = 20 then some b else none

/-- Envelope-construction failures of the spec's builder interface. -/
inductive BuildErr where
  | missingField
deriving DecidableEq

/-- Modelled from the spec: `BuildResponse(transactionID, ret) -> Envelope`
is not in the shown source; it requires `ret.responderID` set (a valid
20-byte node ID) and fails with `MissingField` otherwise. -/
def buildResponse (t : Bytes) (ret : Return) : Except BuildErr Msg :=
  if ret.id.length = 20 then
    .ok { q := [], a := none, t := t, y := rTag, r := some ret, e := none, ip := none, readOnly := false }
  else .error .missingField

/-! ## Compact fixed-stride sub-encoders -/

/-- Compact-encoding failures. -/
inductive CompactErr where
  | badStride
deriving DecidableEq

/-- Modelled from the spec: compact address encoding — IP octets followed
by the port as two big-endian bytes. -/
def encAddr (a : NodeAddr) : Bytes := a.ip ++ [a.port / 256, a.port % 256]

/-- Modelled from the spec: compact node encoding — 20 ID bytes, then the
address. -/
def encNodeInfo (n : NodeInfo) : Bytes := n.id ++ encAddr n.addr

/-- Modelled from the spec: `EncodeNodeList` — concatenates the compact
node encodings in input order. -/
def encNodeList : List NodeInfo → Bytes
  | [] => []
  | n :: l => encNodeInfo n ++ encNodeList l

/-- Modelled from the spec: `EncodeInfohashSamples` — concatenates the
20-byte infohashes. -/
def encSamples : List Bytes → Bytes
  | [] => []
  | s :: l => s ++ encSamples l

/-- Splits a byte string into consecutive chunks of `n` bytes. -/
def chunksOf (n : Nat) (b : Bytes) : List Bytes :=
  if h : b = [] ∨ n = 0 then [] else b.take n :: chunksOf n (b.drop n)
termination_by b.length
decreasing_by
  push_neg at h
  have hb : b.length ≠ 0 := by
    intro hlen
    exact h.1 (List.length_eq_zero.mp hlen)
  simp only [List.length_drop]
  omega

/-- Decodes one compact node chunk of 20 ID bytes, `w` IP bytes and two
big-endian port bytes. -/
def decNodeChunk (w : Nat) (c : Bytes) : NodeInfo :=
  { id := c.take 20
    addr := { ip := (c.drop 20).take w
              port := match (c.drop 20).drop w with
                      | hi :: lo :: _ => hi * 256 + lo
                      | _ => 0 } }

/-- Modelled from the spec: `DecodeNodeList(bytes, addrWidth)` — fails with
`BadStride` when the length is not a multiple of `20 + addrWidth + 2`,
otherwise decodes one node per stride. -/
def decodeNodeList (b : Bytes) (w : Nat) : Except CompactErr (List NodeInfo) :=
  if b.length % (20 + w + 2) = 0 then
    .ok ((chunksOf (20 + w + 2) b).map (decNodeChunk w))
  else .error .badStride

/-- Modelled from the spec: `DecodeInfohashSamples` — 20-byte stride with
the same multiple-of-stride requirement. -/
def decodeSamples (b : Bytes) : Option (List Bytes) :=
  if b.length % 20 = 0 then some (chunksOf 20 b) else none

/-- Modelled from the spec: compact address decoding at a fixed IP width. -/
def decodeAddrW (w : Nat) (b : Bytes) : Option NodeAddr :=
  if b.length = w + 2 then
    match b.drop w with
    | hi :: lo :: _ => some { ip := b.take w, port := hi * 256 + lo }
    | _ => none
  else none

/-- Modelled from the spec: compact address decoding with the width read
off the length — 6 bytes for IPv4, 18 bytes for IPv6. -/
def decodeAddrAuto (b : Bytes) : Option NodeAddr :=
  if b.length = 6 then decodeAddrW 4 b
  else if b.length = 18 then decodeAddrW 16 b
  else none

/-! ## Round trips of the compact sub-encoders -/

theorem chunksOf_nil (n : Nat) : chunksOf n [] = [] := by
  unfold chunksOf
  simp

theorem chunksOf_cons (n : Nat) (x r : Bytes) (hx : x.length = n) (hn : 0 < n) :
    chunksOf n (x ++ r) = x :: chunksOf n r := by
  have hxe : x ≠ [] := by
    intro he
    rw [he] at hx
    simp at hx
    omega
  rw [chunksOf]
  rw [dif_neg (by
    push_neg
    constructor
    · simp [hxe]
    · omega)]
  congr 1
  · rw [← hx, List.take_left]
  · congr 1
    rw [← hx, List.drop_left]

theorem chunksOf_length (n : Nat) (hn : 0 < n) :
    ∀ (k : Nat) (b : Bytes), b.length = n * k → (chunksOf n b).length = k := by
  intro k
  induction k with
  | zero =>
    intro b hb
    have hb0 : b = [] := by
      have hlen : b.length = 0 := by simpa using hb
      exact List.length_eq_zero.mp hlen
    rw [hb0, chunksOf_nil]
    rfl
  | succ k ih =>
    intro b hb
    have hbe : b ≠ [] := by
      intro he
      rw [he] at hb
      simp at hb
      omega
    rw [chunksOf, dif_neg (by push_neg; exact ⟨hbe, by omega⟩)]
    have hdrop : (b.drop n).length = n * k := by
      simp only [List.length_drop, hb]
      have : n * (k + 1) = n * k + n := by ring
      omega
    simp only [List.length_cons, ih (b.drop n) hdrop]

theorem decNodeChunk_enc (w : Nat) (n : NodeInfo)
    (hid : n.id.length = 20) (hip : n.addr.ip.length = w) (hport : n.addr.port < 65536) :
    decNodeChunk w (encNodeInfo n) = n := by
  obtain ⟨id, ip, port⟩ := n
  simp only at hid hip hport
  unfold decNodeChunk encNodeInfo encAddr
  simp only
  have hdrop : (id ++ (ip ++ [port / 256, port % 256])).drop 20 = ip ++ [port / 256, port % 256] := by
    rw [← hid, List.drop_left]
  have htake : (id ++ (ip ++ [port / 256, port % 256])).take 20 = id := by
    rw [← hid, List.take_left]
  rw [hdrop, htake]
  have htake2 : (ip ++ [port / 256, port % 256]).take w = ip := by
    rw [← hip, List.take_left]
  have hdrop2 : (ip ++ [port / 256, port % 256]).drop w = [port / 256, port % 256] := by
    rw [← hip, List.drop_left]
  rw [htake2, hdrop2]
  simp only [NodeInfo.mk.injEq, NodeAddr.mk.injEq, true_and]
  omega

theorem encNodeInfo_length (w : Nat) (n : NodeInfo)
    (hid : n.id.length = 20) (hip : n.addr.ip.length = w) :
    (encNodeInfo n).length = 20 + w + 2 := by
  simp [encNodeInfo, encAddr, hid, hip]
  omega

theorem chunksOf_encNodeList (w : Nat) :
    ∀ l : List NodeInfo, (∀ n ∈ l, n.id.length = 20 ∧ n.addr.ip.length = w) →
      chunksOf (20 + w + 2) (encNodeList l) = l.map encNodeInfo := by
  intro l hl
  induction l with
  | nil => simp [encNodeList, chunksOf_nil]
  | cons n l ih =>
    obtain ⟨hid, hip⟩ := hl n (List.mem_cons_self _ _)
    simp only [encNodeList, List.map_cons]
    rw [chunksOf_cons _ _ _ (encNodeInfo_length w n hid hip) (by omega)]
    rw [ih (fun x hx => hl x (List.mem_cons_of_mem _ hx))]

theorem encNodeList_length (w : Nat) :
    ∀ l : List NodeInfo, (∀ n ∈ l, n.id.length = 20 ∧ n.addr.ip.length = w) →
      (encNodeList l).length = (20 + w + 2) * l.length := by
  intro l hl
  induction l with
  | nil => simp [encNodeList]
  | cons n l ih =>
    obtain ⟨hid, hip⟩ := hl n (List.mem_cons_self _ _)
    simp only [encNodeList, List.length_append, List.length_cons,
      encNodeInfo_length w n hid hip, ih (fun x hx => hl x (List.mem_cons_of_mem _ hx))]
    ring

theorem decodeNodeList_enc (w : Nat) (l : List NodeInfo)
    (hval : ∀ n ∈ l, n.id.length = 20 ∧ n.addr.ip.length = w ∧ n.addr.port < 65536) :
    decodeNodeList (encNodeList l) w = .ok l := by
  have hlen := encNodeList_length w l (fun n hn => ⟨(hval n hn).1, (hval n hn).2.1⟩)
  unfold decodeNodeList
  rw [if_pos (by rw [hlen]; exact Nat.mul_mod_right _ _)]
  rw [chunksOf_encNodeList w l (fun n hn => ⟨(hval n hn).1, (hval n hn).2.1⟩)]
  rw [List.map_map]
  have hmap : ∀ n ∈ l, (decNodeChunk w ∘ encNodeInfo) n = n := by
    intro n hn
    exact decNodeChunk_enc w n (hval n hn).1 (hval n hn).2.1 (hval n hn).2.2
  rw [List.map_congr_left hmap]
  simp

theorem chunksOf_encSamples :
    ∀ l : List Bytes, (∀ s ∈ l, s.length = 20) → chunksOf 20 (encSamples l) = l := by
  intro l hl
  induction l with
  | nil => simp [encSamples, chunksOf_nil]
  | cons s l ih =>
    simp only [encSamples]
    rw [chunksOf_cons _ _ _ (hl s (List.mem_cons_self _ _)) (by omega)]
    rw [ih (fun x hx => hl x (List.mem_cons_of_mem _ hx))]

theorem encSamples_length : ∀ l : List Bytes, (∀ s ∈ l, s.length = 20) →
    (encSamples l).length = 20 * l.length := by
  intro l hl
  induction l with
  | nil => simp [encSamples]
  | cons s l ih =>
    simp only [encSamples, List.length_append, List.length_cons,
      hl s (List.mem_cons_self _ _), ih (fun x hx => hl x (List.mem_cons_of_mem _ hx))]
    ring

theorem decodeSamples_enc (l : List Bytes) (hl : ∀ s ∈ l, s.length = 20) :
    decodeSamples (encSamples l) = some l := by
  unfold decodeSamples
  rw [if_pos (by rw [encSamples_length l hl]; exact Nat.mul_mod_right _ _)]
  rw [chunksOf_encSamples l hl]

theorem decodeAddrW_enc (w : Nat) (a : NodeAddr)
    (hip : a.ip.length = w) (hport : a.port < 65536) :
    decodeAddrW w (encAddr a) = some a := by
  obtain ⟨ip, port⟩ := a
  simp only at hip hport
  unfold decodeAddrW encAddr
  simp only
  rw [if_pos (by simp [hip])]
  have hdrop : (ip ++ [port / 256, port % 256]).drop w = [port / 256, port % 256] := by
    rw [← hip, List.drop_left]
  have htake : (ip ++ [port / 256, port % 256]).take w = ip := by
    rw [← hip, List.take_left]
  rw [hdrop, htake]
  simp only [Option.some.injEq, NodeAddr.mk.injEq, true_and]
  omega

theorem decodeAddrAuto_enc (a : NodeAddr)
    (hval : (a.ip.length = 4 ∨ a.ip.length = 16) ∧ a.port < 65536) :
    decodeAddrAuto (encAddr a) = some a := by
  obtain ⟨hip, hport⟩ := hval
  unfold decodeAddrAuto
  rcases hip with hip | hip
  · rw [if_pos (by simp [encAddr, hip])]
    exact decodeAddrW_enc 4 a hip hport
  · rw [if_neg (by simp [encAddr, hip]), if_pos (by simp [encAddr, hip])]
    exact decodeAddrW_enc 16 a hip hport

/-! ## Building bencode dictionaries from optional fields -/

/-- Builds the entry list of a dictionary from an ordered description of
keys and optional values: a `none` value omits the key entirely (the
optional-field discipline of the wire format). -/
def dictOf (desc : List (Bytes × Option Bval)) : List (Bytes × Bval) :=
  desc.filterMap (fun kv => kv.2.map (fun v => (kv.1, v)))

/-- First value stored under a key in an entry list. -/
def lookupB (k : Bytes) : List (Bytes × Bval) → Option Bval
  | [] => none
  | (k1, v) :: rest => if k = k1 then some v else lookupB k rest

theorem lookupB_dictOf_not_mem (k : Bytes) :
    ∀ desc : List (Bytes × Option Bval), k ∉ desc.map Prod.fst →
      lookupB k (dictOf desc) = none := by
  intro desc
  induction desc with
  | nil => intro _; rfl
  | cons e rest ih =>
    intro hk
    obtain ⟨k1, o⟩ := e
    simp only [List.map_cons, List.mem_cons, not_or] at hk
    obtain ⟨hne, hrest⟩ := hk
    cases o with
    | none =>
      simp only [dictOf, List.filterMap_cons, Option.map_none']
      exact ih hrest
    | some v =>
      simp only [dictOf, List.filterMap_cons, Option.map_some']
      rw [lookupB, if_neg hne]
      exact ih hrest

theorem lookupB_dictOf (k : Bytes) (o : Option Bval) :
    ∀ desc : List (Bytes × Option Bval), (desc.map Prod.fst).Nodup →
      (k, o) ∈ desc → lookupB k (dictOf desc) = o := by
  intro desc
  induction desc with
  | nil => intro _ hmem; cases hmem
  | cons e rest ih =>
    intro hnd hmem
    obtain ⟨k1, o1⟩ := e
    simp only [List.map_cons, List.nodup_cons] at hnd
    obtain ⟨hk1, hndr⟩ := hnd
    rcases List.mem_cons.mp hmem with heq | hmem2
    · obtain ⟨rfl, rfl⟩ : k = k1 ∧ o = o1 := by
        have h1 := congrArg Prod.fst heq
        have h2 := congrArg Prod.snd heq
        simp at h1 h2
        exact ⟨h1, h2⟩
      cases o with
      | none =>
        simp only [dictOf, List.filterMap_cons, Option.map_none']
        exact lookupB_dictOf_not_mem k rest hk1
      | some v =>
        simp only [dictOf, List.filterMap_cons, Option.map_some']
        rw [lookupB, if_pos rfl]
    · have hkr : k ∈ rest.map Prod.fst := by
        exact List.mem_map_of_mem Prod.fst hmem2
      have hne : ¬ k = k1 := by
        intro he
        exact hk1 (he ▸ hkr)
      cases o1 with
      | none =>
        simp only [dictOf, List.filterMap_cons, Option.map_none']
        exact ih hndr hmem2
      | some v1 =>
        simp only [dictOf, List.filterMap_cons, Option.map_some']
        rw [lookupB, if_neg hne]
        exact ih hndr hmem2

/-- Key chain check of a dictionary description: the full key list ascends
strictly from `prev`. -/
def ascDesc : Option Bytes → List (Bytes × Option Bval) → Bool
  | _, [] => true
  | prev, (k, _) :: rest => ascOK prev k && ascDesc (some k) rest

theorem ascDesc_weaken : ∀ (rest : List (Bytes × Option Bval)) (p k : Bytes),
    ascOK (some p) k = true → ascDesc (some k) rest = true → ascDesc (some p) rest = true := by
  intro rest
  induction rest with
  | nil => intro _ _ _ _; rfl
  | cons e rest ih =>
    intro p k hpk h
    obtain ⟨k2, o2⟩ := e
    simp only [ascDesc, Bool.and_eq_true] at h ⊢
    obtain ⟨h1, h2⟩ := h
    refine ⟨?_, h2⟩
    simp only [ascOK] at hpk h1 ⊢
    exact lexLt_trans _ _ _ hpk h1

theorem dictOf_canonicalEntries : ∀ (desc : List (Bytes × Option Bval)) (prev : Option Bytes),
    ascDesc prev desc = true →
    (∀ k v, (k, some v) ∈ desc → canonicalB v = true) →
    canonicalEntriesB prev (dictOf desc) = true := by
  intro desc
  induction desc with
  | nil => intro _ _ _; rfl
  | cons e rest ih =>
    intro prev hasc hval
    obtain ⟨k, o⟩ := e
    simp only [ascDesc, Bool.and_eq_true] at hasc
    obtain ⟨h1, h2⟩ := hasc
    cases o with
    | none =>
      simp only [dictOf, List.filterMap_cons, Option.map_none']
      have h2w : ascDesc prev rest = true := by
        cases prev with
        | none =>
          cases rest with
          | nil => rfl
          | cons f fs =>
            obtain ⟨k2, o2⟩ := f
            simp only [ascDesc, Bool.and_eq_true] at h2 ⊢
            exact ⟨rfl, h2.2⟩
        | some p => exact ascDesc_weaken rest p k h1 h2
      exact ih prev h2w (fun k2 v2 hm => hval k2 v2 (List.mem_cons_of_mem _ hm))
    | some v =>
      simp only [dictOf, List.filterMap_cons, Option.map_some']
      simp only [canonicalEntriesB, Bool.and_eq_true]
      refine ⟨⟨h1, hval k v (List.mem_cons_self _ _)⟩, ?_⟩
      exact ih (some k) h2 (fun k2 v2 hm => hval k2 v2 (List.mem_cons_of_mem _ hm))

/-! ## Wire keys (ASCII byte strings) -/

/-- Key a. -/
def kA : Bytes := [97]

/-- Key e. -/
def kE : Bytes := [101]

/-- Key ip. -/
def kIp : Bytes := [105, 112]

/-- Key q. -/
def kQ : Bytes := [113]

/-- Key r. -/
def kR : Bytes := [114]

/-- Key ro. -/
def kRo : Bytes := [114, 111]

/-- Key t. -/
def kT : Bytes := [116]

/-- Key y. -/
def kY : Bytes := [121]

/-- Key id. -/
def kId : Bytes := [105, 100]

/-- Key implied_port. -/
def kImpliedPort : Bytes := [105, 109, 112, 108, 105, 101, 100, 95, 112, 111, 114, 116]

/-- Key info_hash. -/
def kInfoHash : Bytes := [105, 110, 102, 111, 95, 104, 97, 115, 104]

/-- Key noseed. -/
def kNoseed : Bytes := [110, 111, 115, 101, 101, 100]

/-- Key port. -/
def kPort : Bytes := [112, 111, 114, 116]

/-- Key scrape. -/
def kScrape : Bytes := [115, 99, 114, 97, 112, 101]

/-- Key target. -/
def kTarget : Bytes := [116, 97, 114, 103, 101, 116]

/-- Key token. -/
def kToken : Bytes := [116, 111, 107, 101, 110]

/-- Key v. -/
def kV : Bytes := [118]

/-- Key want. -/
def kWant : Bytes := [119, 97, 110, 116]

/-- Key BFpe. -/
def kBFpe : Bytes := [66, 70, 112, 101]

/-- Key BFsd. -/
def kBFsd : Bytes := [66, 70, 115, 100]

/-- Key interval. -/
def kInterval : Bytes := [105, 110, 116, 101, 114, 118, 97, 108]

/-- Key nodes. -/
def kNodes : Bytes := [110, 111, 100, 101, 115]

/-- Key nodes6. -/
def kNodes6 : Bytes := [110, 111, 100, 101, 115, 54]

/-- Key num. -/
def kNum : Bytes := [110, 117, 109]

/-- Key samples. -/
def kSamples : Bytes := [115, 97, 109, 112, 108, 101, 115]

/-- Key values. -/
def kValues : Bytes := [118, 97, 108, 117, 101, 115]

/-! ## Mapping the envelope to a bencode document -/

/-- The error payload as a document: a 2-element [code, message] list. -/
def errDoc (e : Error) : Bval := .list [.int e.code, .str e.msg]

/-- The want token list as a document. -/
def wantDoc (w : List Bytes) : Bval := .list (w.map .str)

/-- The peer list as a document: one compact address byte string each. -/
def valuesDoc (vs : List NodeAddr) : Bval := .list (vs.map (fun a => .str (encAddr a)))

/-- Ordered key/optional-value description of the query-arguments
dictionary, following the Go field tags with their omitempty semantics. -/
def argsEntriesDesc (a : MsgArgs) : List (Bytes × Option Bval) :=
  [(kId, some (.str a.id)),
   (kImpliedPort, if a.impliedPort then some (.int 1) else none),
   (kInfoHash, a.infoHash.map .str),
   (kNoseed, if a.noSeed = 0 then none else some (.int a.noSeed)),
   (kPort, a.port.map .int),
   (kScrape, if a.scrape = 0 then none else some (.int a.scrape)),
   (kTarget, a.target.map .str),
   (kToken, if a.token = [] then none else some (.str a.token)),
   (kV, a.v),
   (kWant, if a.want = [] then none else some (wantDoc a.want))]

/-- The query-arguments dictionary document. -/
def argsDoc (a : MsgArgs) : Bval := .dict (dictOf (argsEntriesDesc a))

/-- Ordered key/optional-value description of the return-value dictionary. -/
def returnEntriesDesc (r : Return) : List (Bytes × Option Bval) :=
  [(kBFpe, r.bfpe.map .str),
   (kBFsd, r.bfsd.map .str),
   (kId, some (.str r.id)),
   (kInterval, r.bep51.interval.map .int),
   (kNodes, if r.nodes = [] then none else some (.str (encNodeList r.nodes))),
   (kNodes6, if r.nodes6 = [] then none else some (.str (encNodeList r.nodes6))),
   (kNum, r.bep51.num.map .int),
   (kSamples, r.bep51.samples.map (fun s => .str (encSamples s))),
   (kToken, r.token.map .str),
   (kV, r.v),
   (kValues, if r.values = [] then none else some (valuesDoc r.values))]

/-- The return-value dictionary document. -/
def returnDoc (r : Return) : Bval := .dict (dictOf (returnEntriesDesc r))

/-- Ordered key/optional-value description of the top-level envelope
dictionary. -/
def msgEntriesDesc (m : Msg) : List (Bytes × Option Bval) :=
  [(kA, m.a.map argsDoc),
   (kE, m.e.map errDoc),
   (kIp, m.ip.map (fun a => .str (encAddr a))),
   (kQ, if m.q = [] then none else some (.str m.q)),
   (kR, m.r.map returnDoc),
   (kRo, if m.readOnly then some (.int 1) else none),
   (kT, some (.str m.t)),
   (kY, some (.str m.y))]

/-- The envelope as a bencode document. -/
def msgToDoc (m : Msg) : Bval := .dict (dictOf (msgEntriesDesc m))

/-- Modelled from the spec: `Encode(Envelope) -> bytes`, the transport-facing
serializer — the codec itself is not in the shown source. -/
def encodeMsg (m : Msg) : Bytes := Encode (msgToDoc m)

/-! ## Mapping a decoded document back to the envelope -/

/-- A required byte-string field. -/
def asStrReq : Option Bval → Option Bytes
  | some (.str s) => some s
  | _ => none

/-- An optional byte-string field kept as an option. -/
def optStrO : Option Bval → Option (Option Bytes)
  | none => some none
  | some (.str s) => some (some s)
  | _ => none

/-- An optional byte-string field defaulting to the empty string. -/
def optStrD : Option Bval → Option Bytes
  | none => some []
  | some (.str s) => some s
  | _ => none

/-- An optional integer field kept as an option. -/
def optIntO : Option Bval → Option (Option Int)
  | none => some none
  | some (.int i) => some (some i)
  | _ => none

/-- An optional integer field defaulting to zero. -/
def optIntD : Option Bval → Option Int
  | none => some 0
  | some (.int i) => some i
  | _ => none

/-- An optional boolean-as-integer field defaulting to false. -/
def optBool : Option Bval → Option Bool
  | none => some false
  | some (.int i) => some (decide (i ≠ 0))
  | _ => none

/-- A required node-ID field: a byte string of exactly 20 bytes. -/
def reqID : Option Bval → Option Bytes
  | some (.str s) => makeNodeID s
  | _ => none

/-- An optional node-ID field. -/
def optID : Option Bval → Option (Option Bytes)
  | none => some none
  | some (.str s) => (makeNodeID s).map some
  | _ => none

/-- Reads a list of byte-string values. -/
def allStrs : List Bval → Option (List Bytes)
  | [] => some []
  | .str s :: rest => (allStrs rest).map (fun l => s :: l)
  | _ => none

/-- The want field: an optional list of tokens defaulting to empty. -/
def optWant : Option Bval → Option (List Bytes)
  | none => some []
  | some (.list xs) => allStrs xs
  | _ => none

/-- A compact node list field at the given address width, defaulting to
empty when absent. -/
def optNodes (w : Nat) : Option Bval → Option (List NodeInfo)
  | none => some []
  | some (.str s) => (decodeNodeList s w).toOption
  | _ => none

/-- Reads a list of compact peer addresses. -/
def allAddrs : List Bval → Option (List NodeAddr)
  | [] => some []
  | .str s :: rest => (decodeAddrAuto s).bind (fun a => (allAddrs rest).map (fun l => a :: l))
  | _ => none

/-- The values field: an optional peer list defaulting to empty. -/
def optValues : Option Bval → Option (List NodeAddr)
  | none => some []
  | some (.list xs) => allAddrs xs
  | _ => none

/-- The samples field: present-but-empty is distinct from absent. -/
def optSamples : Option Bval → Option (Option (List Bytes))
  | none => some none
  | some (.str s) => (decodeSamples s).map some
  | _ => none

/-- Decodes the query-arguments dictionary. -/
def decodeArgs : Bval → Option MsgArgs
  | .dict kvs =>
    match reqID (lookupB kId kvs), optID (lookupB kInfoHash kvs), optID (lookupB kTarget kvs),
        optStrD (lookupB kToken kvs), optIntO (lookupB kPort kvs),
        optBool (lookupB kImpliedPort kvs), optWant (lookupB kWant kvs),
        optIntD (lookupB kNoseed kvs), optIntD (lookupB kScrape kvs) with
    | some i, some ih, some tg, some tok, some po, some imp, some wa, some ns, some sc =>
      some { id := i, infoHash := ih, target := tg, token := tok, port := po,
             impliedPort := imp, want := wa, noSeed := ns, scrape := sc,
             v := lookupB kV kvs }
    | _, _, _, _, _, _, _, _, _ => none
  | _ => none

/-- Decodes the return-value dictionary. -/
def decodeReturn : Bval → Option Return
  | .dict kvs =>
    match reqID (lookupB kId kvs), optStrO (lookupB kBFsd kvs), optStrO (lookupB kBFpe kvs),
        optNodes 4 (lookupB kNodes kvs), optNodes 16 (lookupB kNodes6 kvs),
        optStrO (lookupB kToken kvs), optValues (lookupB kValues kvs),
        optIntO (lookupB kInterval kvs), optIntO (lookupB kNum kvs),
        optSamples (lookupB kSamples kvs) with
    | some i, some sd, some pe, some nd, some nd6, some tok, some vals, some itv, some nm, some smp =>
      some { id := i, nodes := nd, nodes6 := nd6, token := tok, values := vals,
             bfsd := sd, bfpe := pe, bep51 := { interval := itv, num := nm, samples := smp },
             v := lookupB kV kvs }
    | _, _, _, _, _, _, _, _, _, _ => none
  | _ => none

/-- Decodes the 2-element [code, message] error payload. -/
def decodeErr : Bval → Option Error
  | .list [.int c, .str s] => some { code := c, msg := s }
  | _ => none

/-- An optional query-arguments payload. -/
def optArgs : Option Bval → Option (Option MsgArgs)
  | none => some none
  | some d => (decodeArgs d).map some

/-- An optional return-value payload. -/
def optRet : Option Bval → Option (Option Return)
  | none => some none
  | some d => (decodeReturn d).map some

/-- An optional error payload. -/
def optErrV : Option Bval → Option (Option Error)
  | none => some none
  | some d => (decodeErr d).map some

/-- An optional compact-address field. -/
def optAddr : Option Bval → Option (Option NodeAddr)
  | none => some none
  | some (.str s) => (decodeAddrAuto s).map some
  | _ => none

/-- Variant-consistency check: exactly the payload matching the tag is
present, and the tag is one of q, r, e. -/
def variantOK (y : Bytes) (a : Option MsgArgs) (r : Option Return) (e : Option Error) : Bool :=
  (decide (y = qTag) && a.isSome && r.isNone && e.isNone) ||
  (decide (y = rTag) && a.isNone && r.isSome && e.isNone) ||
  (decide (y = eTag) && a.isNone && r.isNone && e.isSome)

/-- Maps a decoded document to an envelope, validating the variant
discipline. -/
def docToMsg : Bval → Option Msg
  | .dict kvs =>
    match asStrReq (lookupB kT kvs), asStrReq (lookupB kY kvs), optStrD (lookupB kQ kvs),
        optArgs (lookupB kA kvs), optRet (lookupB kR kvs), optErrV (lookupB kE kvs),
        optAddr (lookupB kIp kvs), optBool (lookupB kRo kvs) with
    | some t0, some y0, some q0, some a0, some r0, some e0, some ip0, some ro0 =>
      if variantOK y0 a0 r0 e0 then
        some { q := q0, a := a0, t := t0, y := y0, r := r0, e := e0, ip := ip0, readOnly := ro0 }
      else none
    | _, _, _, _, _, _, _, _ => none
  | _ => none

/-- Modelled from the spec: `Decode(bytes) -> Envelope | error`, the
transport-facing deserializer — the codec itself is not in the shown
source. -/
def decodeMsg (b : Bytes) : Option Msg :=
  (decodeB b).bind docToMsg

/-! ## Validity of envelope values -/

/-- A compact address is valid at width `w`: IP octet count `w` and a
16-bit port. -/
def addrValidB (w : Nat) (a : NodeAddr) : Bool :=
  decide (a.ip.length = w) && decide (a.port < 65536)

/-- A node entry is valid at width `w`. -/
def nodeValidB (w : Nat) (n : NodeInfo) : Bool :=
  decide (n.id.length = 20) && addrValidB w n.addr

/-- An optional embedded document must be canonical to re-encode exactly. -/
def optCanonB : Option Bval → Bool
  | none => true
  | some d => canonicalB d

/-- Validity of query arguments: node IDs are 20 bytes and the opaque
extension payload is canonical. -/
def argsValidB (a : MsgArgs) : Bool :=
  decide (a.id.length = 20) &&
  (match a.infoHash with | none => true | some h => decide (h.length = 20)) &&
  (match a.target with | none => true | some h => decide (h.length = 20)) &&
  optCanonB a.v

/-- Validity of a return value: the responder ID is 20 bytes, node lists
carry the right widths, peers are v4 or v6 addresses, samples are 20-byte
infohashes, and the opaque extension payload is canonical. -/
def retValidB (r : Return) : Bool :=
  decide (r.id.length = 20) &&
  r.nodes.all (nodeValidB 4) &&
  r.nodes6.all (nodeValidB 16) &&
  r.values.all (fun a => addrValidB 4 a || addrValidB 16 a) &&
  (match r.bep51.samples with | none => true | some l => l.all (fun s => decide (s.length = 20))) &&
  optCanonB r.v

/-- Validity of an envelope: the variant discipline holds and the active
payload is valid. -/
def msgValidB (m : Msg) : Bool :=
  variantOK m.y m.a m.r m.e &&
  (match m.a with | none => true | some a => argsValidB a) &&
  (match m.r with | none => true | some r => retValidB r) &&
  (match m.ip with | none => true | some a => addrValidB 4 a || addrValidB 16 a)

/-! ## Field-level round trips -/

theorem reqID_enc (s : Bytes) (h : s.length = 20) : reqID (some (.str s)) = some s := by
  simp [reqID, makeNodeID, h]

theorem optID_map (o : Option Bytes)
    (h : (match o with | none => true | some s => decide (s.length = 20)) = true) :
    optID (o.map .str) = some o := by
  cases o with
  | none => rfl
  | some s =>
    have hs : s.length = 20 := by simpa using h
    simp [optID, makeNodeID, hs]

theorem optStrO_map (o : Option Bytes) : optStrO (o.map .str) = some o := by
  cases o <;> rfl

theorem optStrD_enc (s : Bytes) :
    optStrD (if s = [] then none else some (.str s)) = some s := by
  by_cases h : s = [] <;> simp [optStrD, h]

theorem optIntO_map (o : Option Int) : optIntO (o.map .int) = some o := by
  cases o <;> rfl

theorem optIntD_enc (i : Int) :
    optIntD (if i = 0 then none else some (.int i)) = some i := by
  by_cases h : i = 0 <;> simp [optIntD, h]

theorem optBool_enc (b : Bool) :
    optBool (if b then some (.int 1) else none) = some b := by
  cases b <;> simp [optBool]

theorem allStrs_map : ∀ l : List Bytes, allStrs (l.map .str) = some l := by
  intro l
  induction l with
  | nil => rfl
  | cons s l ih => simp [allStrs, ih]

theorem optWant_enc (w : List Bytes) :
    optWant (if w = [] then none else some (wantDoc w)) = some w := by
  by_cases h : w = []
  · simp [optWant, h]
  · simp [optWant, h, wantDoc, allStrs_map]

theorem optNodes_enc (w : Nat) (l : List NodeInfo) (h : l.all (nodeValidB w) = true) :
    optNodes w (if l = [] then none else some (.str (encNodeList l))) = some l := by
  by_cases he : l = []
  · simp [optNodes, he]
  · rw [if_neg he]
    simp only [optNodes]
    rw [decodeNodeList_enc w l ?hval]
    · rfl
    case hval =>
      intro n hn
      have := List.all_eq_true.mp h n hn
      simp only [nodeValidB, addrValidB, Bool.and_eq_true, decide_eq_true_eq] at this
      exact ⟨this.1, this.2.1, this.2.2⟩

theorem allAddrs_map : ∀ vs : List NodeAddr,
    (∀ a ∈ vs, (a.ip.length = 4 ∨ a.ip.length = 16) ∧ a.port < 65536) →
    allAddrs (vs.map (fun a => .str (encAddr a))) = some vs := by
  intro vs
  induction vs with
  | nil => intro _; rfl
  | cons a vs ih =>
    intro h
    simp only [List.map_cons, allAddrs]
    rw [decodeAddrAuto_enc a (h a (List.mem_cons_self _ _)), Option.some_bind]
    rw [ih (fun x hx => h x (List.mem_cons_of_mem _ hx))]
    rfl

theorem optValues_enc (vs : List NodeAddr)
    (h : vs.all (fun a => addrValidB 4 a || addrValidB 16 a) = true) :
    optValues (if vs = [] then none else some (valuesDoc vs)) = some vs := by
  by_cases he : vs = []
  · simp [optValues, he]
  · rw [if_neg he]
    simp only [optValues, valuesDoc]
    refine allAddrs_map vs ?_
    intro a ha
    have := List.all_eq_true.mp h a ha
    simp only [addrValidB, Bool.or_eq_true, Bool.and_eq_true, decide_eq_true_eq] at this
    rcases this with ⟨h1, h2⟩ | ⟨h1, h2⟩
    · exact ⟨Or.inl h1, h2⟩
    · exact ⟨Or.inr h1, h2⟩

theorem optSamples_enc (o : Option (List Bytes))
    (h : (match o with | none => true | some l => l.all (fun s => decide (s.length = 20))) = true) :
    optSamples (o.map (fun s => .str (encSamples s))) = some o := by
  cases o with
  | none => rfl
  | some l =>
    simp only [Option.map_some', optSamples]
    rw [decodeSamples_enc l ?hl]
    · rfl
    case hl =>
      intro s hs
      have := List.all_eq_true.mp h s hs
      simpa using this

theorem optAddr_enc (o : Option NodeAddr)
    (h : (match o with | none => true | some a => addrValidB 4 a || addrValidB 16 a) = true) :
    optAddr (o.map (fun a => .str (encAddr a))) = some o := by
  cases o with
  | none => rfl
  | some a =>
    simp only [Option.map_some', optAddr]
    have hv : (a.ip.length = 4 ∨ a.ip.length = 16) ∧ a.port < 65536 := by
      simp only [addrValidB, Bool.or_eq_true, Bool.and_eq_true, decide_eq_true_eq] at h
      rcases h with ⟨h1, h2⟩ | ⟨h1, h2⟩
      · exact ⟨Or.inl h1, h2⟩
      · exact ⟨Or.inr h1, h2⟩
    rw [decodeAddrAuto_enc a hv]
    rfl

theorem decodeErr_errDoc (e : Error) : decodeErr (errDoc e) = some e := rfl

theorem optErrV_map (o : Option Error) : optErrV (o.map errDoc) = some o := by
  cases o with
  | none => rfl
  | some e =>
    simp only [Option.map_some', optErrV, decodeErr_errDoc]

theorem asStrReq_str (s : Bytes) : asStrReq (some (.str s)) = some s := rfl

/-! ## Canonicality of the produced documents -/

theorem strList_canonical : ∀ l : List Bytes, canonicalListB (l.map .str) = true := by
  intro l
  induction l with
  | nil => simp [canonicalListB]
  | cons s l ih => simp [canonicalListB, canonicalB, ih]

theorem errDoc_canonical (e : Error) : canonicalB (errDoc e) = true := by
  simp [errDoc, canonicalB, canonicalListB]

theorem wantDoc_canonical (w : List Bytes) : canonicalB (wantDoc w) = true := by
  simp [wantDoc, canonicalB, strList_canonical]

theorem valuesDoc_canonical (vs : List NodeAddr) : canonicalB (valuesDoc vs) = true := by
  have : ∀ l : List NodeAddr, canonicalListB (l.map (fun a => Bval.str (encAddr a))) = true := by
    intro l
    induction l with
    | nil => simp [canonicalListB]
    | cons a l ih => simp [canonicalListB, canonicalB, ih]
  simp [valuesDoc, canonicalB, this]

theorem argsDesc_asc (a : MsgArgs) : ascDesc none (argsEntriesDesc a) = true := rfl

theorem argsDesc_nodup (a : MsgArgs) : ((argsEntriesDesc a).map Prod.fst).Nodup :=
  of_decide_eq_true rfl

theorem argsDoc_canonical (a : MsgArgs) (ha : argsValidB a = true) :
    canonicalB (argsDoc a) = true := by
  simp only [argsValidB, Bool.and_eq_true] at ha
  obtain ⟨⟨⟨_, _⟩, _⟩, hv⟩ := ha
  simp only [argsDoc, canonicalB]
  refine dictOf_canonicalEntries _ none (argsDesc_asc a) ?_
  intro k v hm
  simp only [argsEntriesDesc, List.mem_cons, List.not_mem_nil, or_false,
    Prod.mk.injEq] at hm
  rcases hm with ⟨_, hv2⟩ | ⟨_, hv2⟩ | ⟨_, hv2⟩ | ⟨_, hv2⟩ | ⟨_, hv2⟩ | ⟨_, hv2⟩ |
    ⟨_, hv2⟩ | ⟨_, hv2⟩ | ⟨_, hv2⟩ | ⟨_, hv2⟩
  · have hve : v = .str a.id := by simpa using hv2
    rw [hve]
    simp [canonicalB]
  · by_cases hb : a.impliedPort
    · rw [if_pos hb] at hv2
      have hve : v = .int 1 := by simpa using hv2
      rw [hve]
      simp [canonicalB]
    · rw [if_neg hb] at hv2
      simp at hv2
  · cases h3 : a.infoHash with
    | none => rw [h3] at hv2; simp at hv2
    | some s =>
      rw [h3] at hv2
      have hve : v = .str s := by simpa using hv2
      rw [hve]
      simp [canonicalB]
  · by_cases hb : a.noSeed = 0
    · rw [if_pos hb] at hv2
      simp at hv2
    · rw [if_neg hb] at hv2
      have hve : v = .int a.noSeed := by simpa using hv2
      rw [hve]
      simp [canonicalB]
  · cases h3 : a.port with
    | none => rw [h3] at hv2; simp at hv2
    | some p =>
      rw [h3] at hv2
      have hve : v = .int p := by simpa using hv2
      rw [hve]
      simp [canonicalB]
  · by_cases hb : a.scrape = 0
    · rw [if_pos hb] at hv2
      simp at hv2
    · rw [if_neg hb] at hv2
      have hve : v = .int a.scrape := by simpa using hv2
      rw [hve]
      simp [canonicalB]
  · cases h3 : a.target with
    | none => rw [h3] at hv2; simp at hv2
    | some s =>
      rw [h3] at hv2
      have hve : v = .str s := by simpa using hv2
      rw [hve]
      simp [canonicalB]
  · by_cases hb : a.token = []
    · rw [if_pos hb] at hv2
      simp at hv2
    · rw [if_neg hb] at hv2
      have hve : v = .str a.token := by simpa using hv2
      rw [hve]
      simp [canonicalB]
  · have hvs : a.v = some v := by
      cases h3 : a.v with
      | none => rw [h3] at hv2; simp at hv2
      | some d =>
        rw [h3] at hv2
        have : v = d := by simpa using hv2
        rw [this]
    rw [hvs] at hv
    simpa [optCanonB] using hv
  · by_cases hb : a.want = []
    · rw [if_pos hb] at hv2
      simp at hv2
    · rw [if_neg hb] at hv2
      have hve : v = wantDoc a.want := by simpa using hv2
      rw [hve]
      exact wantDoc_canonical a.want

theorem decodeArgs_argsDoc (a : MsgArgs) (ha : argsValidB a = true) :
    decodeArgs (argsDoc a) = some a := by
  simp only [argsValidB, Bool.and_eq_true, decide_eq_true_eq] at ha
  obtain ⟨⟨⟨h20, hih⟩, htg⟩, _⟩ := ha
  have hnd := argsDesc_nodup a
  have L1 : lookupB kId (dictOf (argsEntriesDesc a)) = some (.str a.id) :=
    lookupB_dictOf _ _ _ hnd (by simp [argsEntriesDesc])
  have L2 : lookupB kImpliedPort (dictOf (argsEntriesDesc a))
      = (if a.impliedPort then some (.int 1) else none) :=
    lookupB_dictOf _ _ _ hnd (by simp [argsEntriesDesc])
  have L3 : lookupB kInfoHash (dictOf (argsEntriesDesc a)) = a.infoHash.map .str :=
    lookupB_dictOf _ _ _ hnd (by simp [argsEntriesDesc])
  have L4 : lookupB kNoseed (dictOf (argsEntriesDesc a))
      = (if a.noSeed = 0 then none else some (.int a.noSeed)) :=
    lookupB_dictOf _ _ _ hnd (by simp [argsEntriesDesc])
  have L5 : lookupB kPort (dictOf (argsEntriesDesc a)) = a.port.map .int :=
    lookupB_dictOf _ _ _ hnd (by simp [argsEntriesDesc])
  have L6 : lookupB kScrape (dictOf (argsEntriesDesc a))
      = (if a.scrape = 0 then none else some (.int a.scrape)) :=
    lookupB_dictOf _ _ _ hnd (by simp [argsEntriesDesc])
  have L7 : lookupB kTarget (dictOf (argsEntriesDesc a)) = a.target.map .str :=
    lookupB_dictOf _ _ _ hnd (by simp [argsEntriesDesc])
  have L8 : lookupB kToken (dictOf (argsEntriesDesc a))
      = (if a.token = [] then none else some (.str a.token)) :=
    lookupB_dictOf _ _ _ hnd (by simp [argsEntriesDesc])
  have L9 : lookupB kV (dictOf (argsEntriesDesc a)) = a.v :=
    lookupB_dictOf _ _ _ hnd (by simp [argsEntriesDesc])
  have L10 : lookupB kWant (dictOf (argsEntriesDesc a))
      = (if a.want = [] then none else some (wantDoc a.want)) :=
    lookupB_dictOf _ _ _ hnd (by simp [argsEntriesDesc])
  simp only [argsDoc, decodeArgs]
  rw [L1, L2, L3, L4, L5, L6, L7, L8, L9, L10]
  rw [reqID_enc a.id h20, optID_map a.infoHash hih, optID_map a.target htg,
    optStrD_enc a.token, optIntO_map a.port, optBool_enc a.impliedPort,
    optWant_enc a.want, optIntD_enc a.noSeed, optIntD_enc a.scrape]

theorem returnDesc_asc (r : Return) : ascDesc none (returnEntriesDesc r) = true := rfl

theorem returnDesc_nodup (r : Return) : ((returnEntriesDesc r).map Prod.fst).Nodup :=
  of_decide_eq_true rfl

theorem returnDoc_canonical (r : Return) (hr : retValidB r = true) :
    canonicalB (returnDoc r) = true := by
  simp only [retValidB, Bool.and_eq_true] at hr
  obtain ⟨⟨⟨⟨⟨_, _⟩, _⟩, _⟩, _⟩, hv⟩ := hr
  simp only [returnDoc, canonicalB]
  refine dictOf_canonicalEntries _ none (returnDesc_asc r) ?_
  intro k v hm
  simp only [returnEntriesDesc, List.mem_cons, List.not_mem_nil, or_false,
    Prod.mk.injEq] at hm
  rcases hm with ⟨_, hv2⟩ | ⟨_, hv2⟩ | ⟨_, hv2⟩ | ⟨_, hv2⟩ | ⟨_, hv2⟩ | ⟨_, hv2⟩ |
    ⟨_, hv2⟩ | ⟨_, hv2⟩ | ⟨_, hv2⟩ | ⟨_, hv2⟩ | ⟨_, hv2⟩
  · cases h3 : r.bfpe with
    | none => rw [h3] at hv2; simp at hv2
    | some s =>
      rw [h3] at hv2
      have hve : v = .str s := by simpa using hv2
      rw [hve]
      simp [canonicalB]
  · cases h3 : r.bfsd with
    | none => rw [h3] at hv2; simp at hv2
    | some s =>
      rw [h3] at hv2
      have hve : v = .str s := by simpa using hv2
      rw [hve]
      simp [canonicalB]
  · have hve : v = .str r.id := by simpa using hv2
    rw [hve]
    simp [canonicalB]
  · cases h3 : r.bep51.interval with
    | none => rw [h3] at hv2; simp at hv2
    | some i =>
      rw [h3] at hv2
      have hve : v = .int i := by simpa using hv2
      rw [hve]
      simp [canonicalB]
  · by_cases hb : r.nodes = []
    · rw [if_pos hb] at hv2
      simp at hv2
    · rw [if_neg hb] at hv2
      have hve : v = .str (encNodeList r.nodes) := by simpa using hv2
      rw [hve]
      simp [canonicalB]
  · by_cases hb : r.nodes6 = []
    · rw [if_pos hb] at hv2
      simp at hv2
    · rw [if_neg hb] at hv2
      have hve : v = .str (encNodeList r.nodes6) := by simpa using hv2
      rw [hve]
      simp [canonicalB]
  · cases h3 : r.bep51.num with
    | none => rw [h3] at hv2; simp at hv2
    | some i =>
      rw [h3] at hv2
      have hve : v = .int i := by simpa using hv2
      rw [hve]
      simp [canonicalB]
  · cases h3 : r.bep51.samples with
    | none => rw [h3] at hv2; simp at hv2
    | some l =>
      rw [h3] at hv2
      have hve : v = .str (encSamples l) := by simpa using hv2
      rw [hve]
      simp [canonicalB]
  · cases h3 : r.token with
    | none => rw [h3] at hv2; simp at hv2
    | some s =>
      rw [h3] at hv2
      have hve : v = .str s := by simpa using hv2
      rw [hve]
      simp [canonicalB]
  · have hvs : r.v = some v := by
      cases h3 : r.v with
      | none => rw [h3] at hv2; simp at hv2
      | some d =>
        rw [h3] at hv2
        have : v = d := by simpa using hv2
        rw [this]
    rw [hvs] at hv
    simpa [optCanonB] using hv
  · by_cases hb : r.values = []
    · rw [if_pos hb] at hv2
      simp at hv2
    · rw [if_neg hb] at hv2
      have hve : v = valuesDoc r.values := by simpa using hv2
      rw [hve]
      exact valuesDoc_canonical r.values

theorem decodeReturn_returnDoc (r : Return) (hr : retValidB r = true) :
    decodeReturn (returnDoc r) = some r := by
  simp only [retValidB, Bool.and_eq_true, decide_eq_true_eq] at hr
  obtain ⟨⟨⟨⟨⟨h20, hnd4⟩, hnd6⟩, hvals⟩, hsmp⟩, _⟩ := hr
  have hnd := returnDesc_nodup r
  have L1 : lookupB kBFpe (dictOf (returnEntriesDesc r)) = r.bfpe.map .str :=
    lookupB_dictOf _ _ _ hnd (by simp [returnEntriesDesc])
  have L2 : lookupB kBFsd (dictOf (returnEntriesDesc r)) = r.bfsd.map .str :=
    lookupB_dictOf _ _ _ hnd (by simp [returnEntriesDesc])
  have L3 : lookupB kId (dictOf (returnEntriesDesc r)) = some (.str r.id) :=
    lookupB_dictOf _ _ _ hnd (by simp [returnEntriesDesc])
  have L4 : lookupB kInterval (dictOf (returnEntriesDesc r)) = r.bep51.interval.map .int :=
    lookupB_dictOf _ _ _ hnd (by simp [returnEntriesDesc])
  have L5 : lookupB kNodes (dictOf (returnEntriesDesc r))
      = (if r.nodes = [] then none else some (.str (encNodeList r.nodes))) :=
    lookupB_dictOf _ _ _ hnd (by simp [returnEntriesDesc])
  have L6 : lookupB kNodes6 (dictOf (returnEntriesDesc r))
      = (if r.nodes6 = [] then none else some (.str (encNodeList r.nodes6))) :=
    lookupB_dictOf _ _ _ hnd (by simp [returnEntriesDesc])
  have L7 : lookupB kNum (dictOf (returnEntriesDesc r)) = r.bep51.num.map .int :=
    lookupB_dictOf _ _ _ hnd (by simp [returnEntriesDesc])
  have L8 : lookupB kSamples (dictOf (returnEntriesDesc r))
      = r.bep51.samples.map (fun s => .str (encSamples s)) :=
    lookupB_dictOf _ _ _ hnd (by simp [returnEntriesDesc])
  have L9 : lookupB kToken (dictOf (returnEntriesDesc r)) = r.token.map .str :=
    lookupB_dictOf _ _ _ hnd (by simp [returnEntriesDesc])
  have L10 : lookupB kV (dictOf (returnEntriesDesc r)) = r.v :=
    lookupB_dictOf _ _ _ hnd (by simp [returnEntriesDesc])
  have L11 : lookupB kValues (dictOf (returnEntriesDesc r))
      = (if r.values = [] then none else some (valuesDoc r.values)) :=
    lookupB_dictOf _ _ _ hnd (by simp [returnEntriesDesc])
  simp only [returnDoc, decodeReturn]
  rw [L1, L2, L3, L4, L5, L6, L7, L8, L9, L10, L11]
  rw [reqID_enc r.id h20, optStrO_map r.bfsd, optStrO_map r.bfpe,
    optNodes_enc 4 r.nodes hnd4, optNodes_enc 16 r.nodes6 hnd6,
    optStrO_map r.token, optValues_enc r.values hvals,
    optIntO_map r.bep51.interval, optIntO_map r.bep51.num,
    optSamples_enc r.bep51.samples hsmp]

theorem msgDesc_asc (m : Msg) : ascDesc none (msgEntriesDesc m) = true := rfl

theorem msgDesc_nodup (m : Msg) : ((msgEntriesDesc m).map Prod.fst).Nodup :=
  of_decide_eq_true rfl

theorem msgToDoc_canonical (m : Msg) (hm : msgValidB m = true) :
    canonicalB (msgToDoc m) = true := by
  simp only [msgValidB, Bool.and_eq_true] at hm
  obtain ⟨⟨⟨_, hA⟩, hR⟩, _⟩ := hm
  simp only [msgToDoc, canonicalB]
  refine dictOf_canonicalEntries _ none (msgDesc_asc m) ?_
  intro k v hm2
  simp only [msgEntriesDesc, List.mem_cons, List.not_mem_nil, or_false,
    Prod.mk.injEq] at hm2
  rcases hm2 with ⟨_, hv2⟩ | ⟨_, hv2⟩ | ⟨_, hv2⟩ | ⟨_, hv2⟩ | ⟨_, hv2⟩ | ⟨_, hv2⟩ |
    ⟨_, hv2⟩ | ⟨_, hv2⟩
  · cases h3 : m.a with
    | none => rw [h3] at hv2; simp at hv2
    | some a =>
      rw [h3] at hv2
      have hve : v = argsDoc a := by simpa using hv2
      rw [hve]
      rw [h3] at hA
      exact argsDoc_canonical a hA
  · cases h3 : m.e with
    | none => rw [h3] at hv2; simp at hv2
    | some e =>
      rw [h3] at hv2
      have hve : v = errDoc e := by simpa using hv2
      rw [hve]
      exact errDoc_canonical e
  · cases h3 : m.ip with
    | none => rw [h3] at hv2; simp at hv2
    | some a =>
      rw [h3] at hv2
      have hve : v = .str (encAddr a) := by simpa using hv2
      rw [hve]
      simp [canonicalB]
  · by_cases hb : m.q = []
    · rw [if_pos hb] at hv2
      simp at hv2
    · rw [if_neg hb] at hv2
      have hve : v = .str m.q := by simpa using hv2
      rw [hve]
      simp [canonicalB]
  · cases h3 : m.r with
    | none => rw [h3] at hv2; simp at hv2
    | some r =>
      rw [h3] at hv2
      have hve : v = returnDoc r := by simpa using hv2
      rw [hve]
      rw [h3] at hR
      exact returnDoc_canonical r hR
  · by_cases hb : m.readOnly
    · rw [if_pos hb] at hv2
      have hve : v = .int 1 := by simpa using hv2
      rw [hve]
      simp [canonicalB]
    · rw [if_neg hb] at hv2
      simp at hv2
  · have hve : v = .str m.t := by simpa using hv2
    rw [hve]
    simp [canonicalB]
  · have hve : v = .str m.y := by simpa using hv2
    rw [hve]
    simp [canonicalB]

theorem docToMsg_msgToDoc (m : Msg) (hm : msgValidB m = true) :
    docToMsg (msgToDoc m) = some m := by
  simp only [msgValidB, Bool.and_eq_true] at hm
  obtain ⟨⟨⟨hvar, hA⟩, hR⟩, hIp⟩ := hm
  have hnd := msgDesc_nodup m
  have L1 : lookupB kA (dictOf (msgEntriesDesc m)) = m.a.map argsDoc :=
    lookupB_dictOf _ _ _ hnd (by simp [msgEntriesDesc])
  have L2 : lookupB kE (dictOf (msgEntriesDesc m)) = m.e.map errDoc :=
    lookupB_dictOf _ _ _ hnd (by simp [msgEntriesDesc])
  have L3 : lookupB kIp (dictOf (msgEntriesDesc m))
      = m.ip.map (fun a => .str (encAddr a)) :=
    lookupB_dictOf _ _ _ hnd (by simp [msgEntriesDesc])
  have L4 : lookupB kQ (dictOf (msgEntriesDesc m))
      = (if m.q = [] then none else some (.str m.q)) :=
    lookupB_dictOf _ _ _ hnd (by simp [msgEntriesDesc])
  have L5 : lookupB kR (dictOf (msgEntriesDesc m)) = m.r.map returnDoc :=
    lookupB_dictOf _ _ _ hnd (by simp [msgEntriesDesc])
  have L6 : lookupB kRo (dictOf (msgEntriesDesc m))
      = (if m.readOnly then some (.int 1) else none) :=
    lookupB_dictOf _ _ _ hnd (by simp [msgEntriesDesc])
  have L7 : lookupB kT (dictOf (msgEntriesDesc m)) = some (.str m.t) :=
    lookupB_dictOf _ _ _ hnd (by simp [msgEntriesDesc])
  have L8 : lookupB kY (dictOf (msgEntriesDesc m)) = some (.str m.y) :=
    lookupB_dictOf _ _ _ hnd (by simp [msgEntriesDesc])
  have hArgs : optArgs (m.a.map argsDoc) = some m.a := by
    cases h3 : m.a with
    | none => rfl
    | some a =>
      rw [h3] at hA
      simp only [Option.map_some', optArgs, decodeArgs_argsDoc a hA]
  have hRet : optRet (m.r.map returnDoc) = some m.r := by
    cases h3 : m.r with
    | none => rfl
    | some r =>
      rw [h3] at hR
      simp only [Option.map_some', optRet, decodeReturn_returnDoc r hR]
  simp only [msgToDoc, docToMsg]
  rw [L1, L2, L3, L4, L5, L6, L7, L8]
  rw [asStrReq_str m.t, asStrReq_str m.y, optStrD_enc m.q, hArgs, hRet,
    optErrV_map m.e, optAddr_enc m.ip hIp, optBool_enc m.readOnly]
  have hfin : (if variantOK m.y m.a m.r m.e = true then
      some { q := m.q, a := m.a, t := m.t, y := m.y, r := m.r, e := m.e,
             ip := m.ip, readOnly := m.readOnly : Msg }
    else none) = some m := by
    rw [if_pos hvar]
  exact hfin

/-- The full envelope round trip: decoding the bytes produced by encoding
a valid envelope yields the envelope back. -/
theorem decodeMsg_encodeMsg (m : Msg) (hm : msgValidB m = true) :
    decodeMsg (encodeMsg m) = some m := by
  have hc := msgToDoc_canonical m hm
  unfold decodeMsg encodeMsg Encode
  rw [canon_id _ hc, decodeB_bencode _ hc, Option.some_bind]
  exact docToMsg_msgToDoc m hm

/-! ## The claims -/

/-- C1: For every valid envelope value, of any of the three variants and
with any combination of optional fields present or absent, decoding the
bytes produced by encoding it yields a value equal to it. -/
theorem C1_decode_encode_roundtrip (m : Msg) (hm : msgValidB m = true) :
    decodeMsg (encodeMsg m) = some m :=
  decodeMsg_encodeMsg m hm

/-- A concrete valid query envelope. -/
def wMsgC1 : Msg :=
  { q := [112, 105, 110, 103]
    a := some { id := List.replicate 20 7, infoHash := none, target := none, token := []
                port := none, impliedPort := false, want := [], noSeed := 0, scrape := 0, v := none }
    t := [116, 49], y := qTag, r := none, e := none, ip := none, readOnly := false }

/-- C1 witness at a concrete query envelope. -/
theorem C1_witness : decodeMsg (encodeMsg wMsgC1) = some wMsgC1 :=
  C1_decode_encode_roundtrip wMsgC1 (by decide)

/-- C2: SenderID never fails; it returns the query-arguments id for a
query whose arguments payload is present, the return-value id for a
response whose return payload is present, and none when the tag is the
error tag or the active variant's payload is absent. -/
theorem C2_senderID (m : Msg) :
    (∀ a, m.y = qTag → m.a = some a → m.SenderID = some a.id) ∧
    (m.y = qTag → m.a = none → m.SenderID = none) ∧
    (∀ r, m.y = rTag → m.r = some r → m.SenderID = some r.id) ∧
    (m.y = rTag → m.r = none → m.SenderID = none) ∧
    (m.y = eTag → m.SenderID = none) := by
  refine ⟨?_, ?_, ?_, ?_, ?_⟩
  · intro a hy ha
    simp [Msg.SenderID, hy, ha]
  · intro hy ha
    simp [Msg.SenderID, hy, ha]
  · intro r hy hr
    simp [Msg.SenderID, hy, hr, qTag, rTag]
  · intro hy hr
    simp [Msg.SenderID, hy, hr, qTag, rTag]
  · intro hy
    simp [Msg.SenderID, hy, qTag, rTag, eTag]

/-- A concrete query-arguments payload. -/
def argsC2 : MsgArgs :=
  { id := List.replicate 20 7, infoHash := none, target := none, token := []
    port := none, impliedPort := false, want := [], noSeed := 0, scrape := 0, v := none }

/-- A concrete query envelope. -/
def wMsgC2 : Msg :=
  { q := [112, 105, 110, 103], a := some argsC2, t := [116, 50], y := qTag
    r := none, e := none, ip := none, readOnly := false }

/-- A concrete error envelope. -/
def wMsgC2e : Msg :=
  { q := [], a := none, t := [116, 51], y := eTag
    r := none, e := some { code := 201, msg := [] }, ip := none, readOnly := false }

/-- C2 witness at a concrete query and a concrete error envelope. -/
theorem C2_witness :
    wMsgC2.SenderID = some (List.replicate 20 7) ∧ wMsgC2e.SenderID = none :=
  ⟨(C2_senderID wMsgC2).1 argsC2 rfl rfl, (C2_senderID wMsgC2e).2.2.2.2 rfl⟩

/-- An envelope whose variant tag is the error tag but whose error payload
is absent. -/
def badErrMsg : Msg :=
  { q := [], a := none, t := [], y := eTag, r := none, e := none, ip := none
    readOnly := false }

/-- C3 counterexample: on an envelope tagged with the error tag whose
error payload is absent, AsError returns none although the variant tag is
the error tag, so AsError does not return some error payload if and only
if the variant tag is the error tag. -/
theorem C3_counterexample : badErrMsg.y = eTag ∧ badErrMsg.Error = none := by
  constructor
  · rfl
  · decide

/-- C3 amended: AsError returns none for any non-error tag, and for an
error-tagged envelope returns exactly the envelope's error payload field —
the exact {code, message} pair when present, none when the payload is
absent; hence it returns some pair exactly when the tag is the error tag
and the payload is present. -/
theorem C3_asError (m : Msg) :
    (m.y ≠ eTag → m.Error = none) ∧
    (m.y = eTag → m.Error = m.e) ∧
    ((∃ p, m.Error = some p) ↔ (m.y = eTag ∧ m.e ≠ none)) := by
  refine ⟨?_, ?_, ?_⟩
  · intro h
    simp [Msg.Error, h]
  · intro h
    simp [Msg.Error, h]
  · constructor
    · rintro ⟨p, hp⟩
      by_cases h : m.y = eTag
      · refine ⟨h, ?_⟩
        simp only [Msg.Error, h, ne_eq, not_true_eq_false, if_false] at hp
        intro he
        rw [he] at hp
        cases hp
      · simp [Msg.Error, h] at hp
    · rintro ⟨h1, h2⟩
      cases he : m.e with
      | none => exact absurd he h2
      | some p =>
        refine ⟨p, ?_⟩
        simp [Msg.Error, h1, he]

/-- The error payload with code 201 and message Generic Error. -/
def genericError : Error :=
  { code := 201, msg := [71, 101, 110, 101, 114, 105, 99, 32, 69, 114, 114, 111, 114] }

/-- A concrete error envelope carrying code 201 and message Generic Error. -/
def errMsg201 : Msg :=
  { q := [], a := none, t := [], y := eTag, r := none
    e := some genericError
    ip := none, readOnly := false }

/-- C3 witness: the amended statement at the code-201 error envelope and
at the same envelope retagged as a query. -/
theorem C3_witness :
    errMsg201.Error = some genericError ∧
    ({ errMsg201 with y := qTag } : Msg).Error = none := by
  constructor
  · rw [(C3_asError errMsg201).2.1 rfl]
    rfl
  · exact (C3_asError _).1 (by decide)

/-- C4: ForAllNodes invokes the visitor exactly once per node entry, all
v4 entries in their list order first and then all v6 entries in their list
order: for every visitor it is the fold over the concatenated list, and
the trace visitor records exactly the concatenated node sequence. -/
theorem C4_forAllNodes_order (r : Return) :
    (∀ (σ : Type) (f : NodeInfo → σ → σ) (s : σ),
      r.ForAllNodes f s = (r.nodes ++ r.nodes6).foldl (fun acc n => f n acc) s) ∧
    r.ForAllNodes (fun n acc => acc ++ [n]) [] = r.nodes ++ r.nodes6 := by
  have hfold : ∀ (σ : Type) (f : NodeInfo → σ → σ) (s : σ),
      r.ForAllNodes f s = (r.nodes ++ r.nodes6).foldl (fun acc n => f n acc) s := by
    intro σ f s
    unfold Return.ForAllNodes
    rw [List.foldl_append]
  refine ⟨hfold, ?_⟩
  rw [hfold]
  have htr : ∀ (l acc : List NodeInfo),
      l.foldl (fun acc n => acc ++ [n]) acc = acc ++ l := by
    intro l
    induction l with
    | nil =>
      intro acc
      simp
    | cons n l ih =>
      intro acc
      simp [ih]
  simp [htr]

/-- C5: Constructing a response envelope fails with MissingField when the
return value's responder ID is not set, and succeeds — producing a
response-tagged envelope carrying the return value — when it is. -/
theorem C5_buildResponse (t : Bytes) (ret : Return) :
    (ret.id.length ≠ 20 → buildResponse t ret = .error .missingField) ∧
    (ret.id.length = 20 → buildResponse t ret
        = .ok { q := [], a := none, t := t, y := rTag, r := some ret, e := none
                ip := none, readOnly := false }) := by
  constructor
  · intro h
    simp [buildResponse, h]
  · intro h
    simp [buildResponse, h]

/-- A concrete return value with the responder ID set. -/
def wRetC5 : Return :=
  { id := List.replicate 20 3, nodes := [], nodes6 := [], token := none, values := []
    bfsd := none, bfpe := none
    bep51 := { interval := none, num := none, samples := none }, v := none }

/-- The same return value with the responder ID unset. -/
def wRetC5bad : Return := { wRetC5 with id := [] }

/-- The expected response envelope of the C5 witness. -/
def wRespC5 : Msg :=
  { q := [], a := none, t := [116], y := rTag, r := some wRetC5, e := none
    ip := none, readOnly := false }

/-- C5 witness: success with the ID set, MissingField without it. -/
theorem C5_witness :
    buildResponse [116] wRetC5 = .ok wRespC5 ∧
    buildResponse [116] wRetC5bad = .error .missingField :=
  ⟨(C5_buildResponse [116] wRetC5).2 (by decide),
   (C5_buildResponse [116] wRetC5bad).1 (by decide)⟩

/-- C6: DecodeNodeList fails with BadStride exactly when the input length
is not a multiple of the stride 20 + addrWidth + 2, and otherwise succeeds
with exactly length/stride node entries. -/
theorem C6_decodeNodeList_stride (b : Bytes) (w : Nat) (hw : w = 4 ∨ w = 16) :
    (b.length % (20 + w + 2) ≠ 0 ↔ decodeNodeList b w = .error .badStride) ∧
    (b.length % (20 + w + 2) = 0 →
      ∃ l, decodeNodeList b w = .ok l ∧ l.length = b.length / (20 + w + 2)) := by
  constructor
  · constructor
    · intro h
      unfold decodeNodeList
      rw [if_neg h]
    · intro h
      by_contra hmod
      unfold decodeNodeList at h
      rw [if_pos (by omega)] at h
      cases h
  · intro hmod
    unfold decodeNodeList
    rw [if_pos hmod]
    refine ⟨_, rfl, ?_⟩
    rw [List.length_map]
    refine chunksOf_length _ (by omega) (b.length / (20 + w + 2)) b ?_
    have hdvd : (20 + w + 2) ∣ b.length := Nat.dvd_of_mod_eq_zero hmod
    rw [Nat.mul_div_cancel' hdvd]

/-- C6 witness: a 52-byte string decodes to exactly 2 v4 entries and a
27-byte string fails with BadStride. -/
theorem C6_witness :
    (∃ l, decodeNodeList (List.replicate 52 0) 4 = .ok l ∧
      l.length = (List.replicate 52 0 : Bytes).length / (20 + 4 + 2)) ∧
    ((List.replicate 27 0 : Bytes).length % (20 + 4 + 2) ≠ 0 ↔
      decodeNodeList (List.replicate 27 0) 4 = .error .badStride) :=
  ⟨(C6_decodeNodeList_stride (List.replicate 52 0) 4 (Or.inl rfl)).2 (by decide),
   (C6_decodeNodeList_stride (List.replicate 27 0) 4 (Or.inl rfl)).1⟩

/-- C7: A present-but-empty samples field is encoded as the samples key
with a zero-length byte string — not omitted — and decodes back to a
present empty sequence; an absent samples field omits the key and decodes
to none, so the two are distinguishable. -/
theorem C7_samples_empty_vs_absent (r : Return) (hr : retValidB r = true) :
    (r.bep51.samples = some [] →
      lookupB kSamples (dictOf (returnEntriesDesc r)) = some (.str []) ∧
      decodeReturn (returnDoc r) = some r) ∧
    (r.bep51.samples = none →
      lookupB kSamples (dictOf (returnEntriesDesc r)) = none ∧
      decodeReturn (returnDoc r) = some r) := by
  have hL : lookupB kSamples (dictOf (returnEntriesDesc r))
      = r.bep51.samples.map (fun s => .str (encSamples s)) :=
    lookupB_dictOf _ _ _ (returnDesc_nodup r) (by simp [returnEntriesDesc])
  constructor
  · intro h
    rw [hL, h]
    exact ⟨by simp [encSamples], decodeReturn_returnDoc r hr⟩
  · intro h
    rw [hL, h]
    exact ⟨rfl, decodeReturn_returnDoc r hr⟩

/-- A concrete return value whose samples field is present but empty. -/
def wRetC7samp : Return :=
  { id := List.replicate 20 4, nodes := [], nodes6 := [], token := none, values := []
    bfsd := none, bfpe := none
    bep51 := { interval := none, num := none, samples := some [] }, v := none }

/-- A concrete return value whose samples field is absent. -/
def wRetC7none : Return :=
  { id := List.replicate 20 4, nodes := [], nodes6 := [], token := none, values := []
    bfsd := none, bfpe := none
    bep51 := { interval := none, num := none, samples := none }, v := none }

/-- C7 witness: the empty-but-present and the absent samples cases. -/
theorem C7_witness :
    (lookupB kSamples (dictOf (returnEntriesDesc wRetC7samp)) = some (.str []) ∧
      decodeReturn (returnDoc wRetC7samp) = some wRetC7samp) ∧
    (lookupB kSamples (dictOf (returnEntriesDesc wRetC7none)) = none ∧
      decodeReturn (returnDoc wRetC7none) = some wRetC7none) :=
  ⟨(C7_samples_empty_vs_absent wRetC7samp (by decide)).1 rfl,
   (C7_samples_empty_vs_absent wRetC7none (by decide)).2 rfl⟩

/-- C8: NodeID construction fails for any byte-string length other than
20, and succeeds returning the input unchanged for a 20-byte string. -/
theorem C8_makeNodeID (b : Bytes) :
    (b.length = 20 → makeNodeID b = some b) ∧
    (b.length ≠ 20 → makeNodeID b = none) := by
  constructor
  · intro h
    simp [makeNodeID, h]
  · intro h
    simp [makeNodeID, h]

/-- C8 witness: a 20-byte value is returned unchanged, a 3-byte value
fails. -/
theorem C8_witness :
    makeNodeID (List.replicate 20 1) = some (List.replicate 20 1) ∧
    makeNodeID [1, 2, 3] = none :=
  ⟨(C8_makeNodeID (List.replicate 20 1)).1 (by decide),
   (C8_makeNodeID [1, 2, 3]).2 (by decide)⟩

/-- C9: Encode is deterministic — two documents equal as logical
dictionaries (entries permuted, keys unique) encode to identical byte
sequences — and the output carries every dictionary with strictly
ascending lexicographic keys: the canonicalized document is canonical and
is exactly what the output bytes decode to. -/
theorem C9_encode_deterministic_sorted :
    (∀ kvs1 kvs2 : List (Bytes × Bval), kvs1.Perm kvs2 → (kvs1.map Prod.fst).Nodup →
      Encode (.dict kvs1) = Encode (.dict kvs2)) ∧
    (∀ d : Bval, wfB d = true →
      canonicalB (canon d) = true ∧ decodeB (Encode d) = some (canon d)) := by
  constructor
  · intro kvs1 kvs2 hp hnd
    unfold Encode
    have hcanon : canon (.dict kvs1) = canon (.dict kvs2) := by
      simp only [canon]
      have hp2 : (canonEntries kvs1).Perm (canonEntries kvs2) := by
        rw [canonEntries_eq_map, canonEntries_eq_map]
        exact hp.map _
      have hnd2 : ((canonEntries kvs1).map Prod.fst).Nodup := by
        rw [canonEntries_keys]
        exact hnd
      rw [sortEntries_eq_of_perm _ _ hp2 hnd2]
    rw [hcanon]
  · intro d hw
    have hc := canon_wf_canonical d hw
    refine ⟨hc, ?_⟩
    unfold Encode
    exact decodeB_bencode _ hc

/-- A two-entry dictionary. -/
def wDict1 : List (Bytes × Bval) := [([97], .int 1), ([98], .int 2)]

/-- The same dictionary with its entries swapped. -/
def wDict2 : List (Bytes × Bval) := [([98], .int 2), ([97], .int 1)]

/-- C9 witness: the permuted dictionaries encode identically, and a
concrete document canonicalizes and decodes back. -/
theorem C9_witness :
    Encode (.dict wDict1) = Encode (.dict wDict2) ∧
    (canonicalB (canon (.dict wDict2)) = true ∧
      decodeB (Encode (.dict wDict2)) = some (canon (.dict wDict2))) :=
  ⟨C9_encode_deterministic_sorted.1 wDict1 wDict2
      (show wDict1.Perm wDict2 from List.Perm.swap ([98], Bval.int 2) ([97], Bval.int 1) [])
      (by decide),
    C9_encode_deterministic_sorted.2 (.dict wDict2) (by decide)⟩

/-- C10: For every envelope whose variant tag is anything other than the
query tag and the response tag — including unknown or extension tags —
SenderID returns none without failing. -/
theorem C10_senderID_other_tags (m : Msg) (hq : m.y ≠ qTag) (hr : m.y ≠ rTag) :
    m.SenderID = none := by
  simp [Msg.SenderID, hq, hr]

/-- C10 witness: an envelope with the unknown tag x. -/
theorem C10_witness :
    ({ q := [], a := none, t := [], y := [120], r := none, e := none, ip := none
       readOnly := false } : Msg).SenderID = none :=
  C10_senderID_other_tags _ (by decide) (by decide)
